import Mathlib

/-!
# Stabilizer simulator (`ChpSim`): embedding and properties

The simulator of `src/chp_sim.cc` keeps the inverse tableau of the Clifford applied so far
and measures qubits in the Z basis.  The definitions below follow that file function by
function.  The classes it calls into (`Tableau`, `BlockTransposedTableau`, the bit-matrix
helpers and the gate table) live outside the two source files; each of them is modelled from
the specification and says so in its doc comment.
-/

set_option maxRecDepth 100000

namespace Stim

/-! ## Pauli strings -/

/-- Modelled from the spec: the Pauli string of section 3 (its class is outside the source
files).  `x j` and `z j` are the bit at index `j` of the two bit vectors, padding included;
`sign` is the single sign bit (true for a factor of -1). -/
structure PauliString where
  x : Nat → Bool
  z : Nat → Bool
  sign : Bool

/-- Modelled from the spec: the all-identity Pauli string with positive sign
(`construct-zero(n)` of section 4.B). -/
def PauliString.zero : PauliString :=
  { x := fun _ => false, z := fun _ => false, sign := false }

/-- Modelled from the spec: the single-qubit Pauli `X_q` with positive sign. -/
def PauliString.single_X (q : Nat) : PauliString :=
  { x := fun j => decide (j = q), z := fun _ => false, sign := false }

/-- Modelled from the spec: the single-qubit Pauli `Z_q` with positive sign. -/
def PauliString.single_Z (q : Nat) : PauliString :=
  { x := fun _ => false, z := fun j => decide (j = q), sign := false }

/-! ### The gate table of section 4.C, acting on one Pauli string

Each function is one row of the table: the effect on `(x, z)` at the affected qubit and the
bit XORed into `sign`. -/

/-- Modelled from the spec: row `H(q)` of the table, swap `x[q]` and `z[q]`, XOR `x·z` into
`sign`. -/
def PauliString.apply_H (p : PauliString) (q : Nat) : PauliString :=
  { x := Function.update p.x q (p.z q)
    z := Function.update p.z q (p.x q)
    sign := p.sign ^^ (p.x q && p.z q) }

/-- Modelled from the spec: row `H_XY(q)` of the table, `z[q] ← x[q]⊕z[q]`, XOR
`x·(x⊕z_new)` into `sign`. -/
def PauliString.apply_H_XY (p : PauliString) (q : Nat) : PauliString :=
  let z_new := p.x q ^^ p.z q
  { x := p.x
    z := Function.update p.z q z_new
    sign := p.sign ^^ (p.x q && (p.x q ^^ z_new)) }

/-- Modelled from the spec: row `H_YZ(q)` of the table, `x[q] ← x[q]⊕z[q]`, XOR
`(x_new)·z` into `sign`. -/
def PauliString.apply_H_YZ (p : PauliString) (q : Nat) : PauliString :=
  let x_new := p.x q ^^ p.z q
  { x := Function.update p.x q x_new
    z := p.z
    sign := p.sign ^^ (x_new && p.z q) }

/-- Modelled from the spec: row `X(q)` of the table, bits unchanged, XOR `z[q]` into
`sign`. -/
def PauliString.apply_X (p : PauliString) (q : Nat) : PauliString :=
  { p with sign := p.sign ^^ p.z q }

/-- Modelled from the spec: row `Z(q)` of the table, bits unchanged, XOR `x[q]` into
`sign`. -/
def PauliString.apply_Z (p : PauliString) (q : Nat) : PauliString :=
  { p with sign := p.sign ^^ p.x q }

/-- Modelled from the spec: row `Y(q)` of the table, bits unchanged, XOR `x[q]⊕z[q]` into
`sign`. -/
def PauliString.apply_Y (p : PauliString) (q : Nat) : PauliString :=
  { p with sign := p.sign ^^ (p.x q ^^ p.z q) }

/-- Modelled from the spec: row `SQRT_Z(q)` of the table, `x[q]` kept, `z[q] ← z[q]⊕x[q]`,
XOR `x·z_old` into `sign`. -/
def PauliString.apply_SQRT_Z (p : PauliString) (q : Nat) : PauliString :=
  { x := p.x
    z := Function.update p.z q (p.z q ^^ p.x q)
    sign := p.sign ^^ (p.x q && p.z q) }

/-- Modelled from the spec: the dagger case of row `SQRT_Z(q)`, same bits, XOR `x·z_new`
into `sign`. -/
def PauliString.apply_SQRT_Z_DAG (p : PauliString) (q : Nat) : PauliString :=
  let z_new := p.z q ^^ p.x q
  { x := p.x
    z := Function.update p.z q z_new
    sign := p.sign ^^ (p.x q && z_new) }

/-- Modelled from the spec: row `CX(c,t)` of the table, `x[t] ⊕= x[c]`, `z[c] ⊕= z[t]`,
XOR `x[c]·z[t]·(x[t]⊕z[c]⊕1)` into `sign`. -/
def PauliString.apply_CX (p : PauliString) (c t : Nat) : PauliString :=
  { x := Function.update p.x t (p.x t ^^ p.x c)
    z := Function.update p.z c (p.z c ^^ p.z t)
    sign := p.sign ^^ (p.x c && p.z t && Bool.xor (p.x t ^^ p.z c) true) }

/-- Modelled from the spec: row `CZ(c,t)` of the table, `z[c] ⊕= x[t]`, `z[t] ⊕= x[c]`,
XOR `x[c]·x[t]·(z[c]⊕z[t])` into `sign`. -/
def PauliString.apply_CZ (p : PauliString) (c t : Nat) : PauliString :=
  { x := p.x
    z := Function.update (Function.update p.z c (p.z c ^^ p.x t)) t (p.z t ^^ p.x c)
    sign := p.sign ^^ (p.x c && p.x t && (p.z c ^^ p.z t)) }

/-- Modelled from the spec: row `SQRT_X(q)` of the table, "dual of `SQRT_Z` under `H`":
the `SQRT_Z` row between two `H` rows. -/
def PauliString.apply_SQRT_X (p : PauliString) (q : Nat) : PauliString :=
  ((p.apply_H q).apply_SQRT_Z q).apply_H q

/-- Modelled from the spec: the dagger of row `SQRT_X(q)`, the `SQRT_Z` dagger row between
two `H` rows. -/
def PauliString.apply_SQRT_X_DAG (p : PauliString) (q : Nat) : PauliString :=
  ((p.apply_H q).apply_SQRT_Z_DAG q).apply_H q

/-- Modelled from the spec: row `SQRT_Y(q)` of the table, "composition of `H` and `SQRT_Z`".
The spec does not give the order; the one used is `SQRT_Z`, `SQRT_Z`, `H`, which sends `X` to
`-Z` and `Z` to `X`. -/
def PauliString.apply_SQRT_Y (p : PauliString) (q : Nat) : PauliString :=
  ((p.apply_SQRT_Z q).apply_SQRT_Z q).apply_H q

/-- Modelled from the spec: the dagger of row `SQRT_Y(q)`, the reverse composition `H`,
`SQRT_Z` dagger, `SQRT_Z` dagger. -/
def PauliString.apply_SQRT_Y_DAG (p : PauliString) (q : Nat) : PauliString :=
  ((p.apply_H q).apply_SQRT_Z_DAG q).apply_SQRT_Z_DAG q

/-- Modelled from the spec: row `CY(c,t)` of the table, "`CX` conjugated by `S(t)`": the
`SQRT_Z` dagger row at `t`, the `CX` row, the `SQRT_Z` row at `t`. -/
def PauliString.apply_CY (p : PauliString) (c t : Nat) : PauliString :=
  (((p.apply_SQRT_Z_DAG t).apply_CX c t).apply_SQRT_Z t)

/-! ### Products of Pauli strings (section 4.B) -/

/-- Modelled from the spec: the contribution of one qubit to the phase count of a product,
`+1` for the pairs `X·Z`, `Y·X`, `Z·Y` (each equal to `-i` times a Pauli), `-1` for their
reverses, `0` otherwise. -/
def phase_qubit (x1 z1 x2 z2 : Bool) : Int :=
  match x1, z1, x2, z2 with
  | true, false, false, true => 1
  | true, true, true, false => 1
  | false, true, true, true => 1
  | false, true, true, false => -1
  | true, false, true, true => -1
  | true, true, false, true => -1
  | _, _, _, _ => 0

/-- Modelled from the spec: the phase count of the product `p · q` over the first `n`
qubits; the product is `(-i)^count` times the XOR of the two strings. -/
def phase_count : Nat → PauliString → PauliString → Int
  | 0, _, _ => 0
  | k + 1, p, q => phase_count k p q + phase_qubit (p.x k) (p.z k) (q.x k) (q.z k)

/-- Modelled from the spec: the Pauli string `(-i)^k · p · q` over `n` qubits: XOR of the
bits, and the sign flips when half of the total phase count is odd ("divide by 2 mod 2").
`k = 0` is the plain product, `k = -1` the product times `i`, `k = 1` the product times
`-i`. -/
def PauliString.mul_pow (n : Nat) (k : Int) (p q : PauliString) : PauliString :=
  { x := fun j => p.x j ^^ q.x j
    z := fun j => p.z j ^^ q.z j
    sign := Bool.xor (p.sign ^^ q.sign) (decide ((phase_count n p q + k) / 2 % 2 = 1)) }

/-! ## Tableau -/

/-- Modelled from the spec: the tableau of section 3 (its class is outside the source files),
two arrays of Pauli strings indexed by qubit.  Indices at or beyond `num_qubits` stand for
the padding rows of the bit matrix. -/
structure Tableau where
  num_qubits : Nat
  x_obs : Nat → PauliString
  z_obs : Nat → PauliString

/-- Modelled from the spec: `Tableau::identity(n)`, `X_obs[q] = X_q`, `Z_obs[q] = Z_q`, all
signs positive; padding rows are zeroed storage. -/
def Tableau.identity (num_qubits : Nat) : Tableau :=
  { num_qubits := num_qubits
    x_obs := fun q => if q < num_qubits then PauliString.single_X q else PauliString.zero
    z_obs := fun q => if q < num_qubits then PauliString.single_Z q else PauliString.zero }

/-- Modelled from the spec: `Tableau::z_sign(q)`, the sign bit of `Z_obs[q]`. -/
def Tableau.z_sign (t : Tableau) (q : Nat) : Bool :=
  (t.z_obs q).sign

/-- Modelled from the spec: the pointer to one Pauli string that `z_obs_ptr` returns.
`_x a i` is bit `i` of the 256-bit lane found `a` lanes after the start of the `x` bits,
`stride256` the distance in lanes between consecutive lanes of the string. -/
structure PauliStringPtr where
  _x : Nat → Nat → Bool
  _z : Nat → Nat → Bool
  stride256 : Nat

/-- Modelled from the spec: `Tableau::z_obs_ptr(q)`.  Lane `k` of `Z_obs[q]` holds the bits
`256 k .. 256 k + 255`; the model puts the lanes of one string next to each other. -/
def Tableau.z_obs_ptr (t : Tableau) (q : Nat) : PauliStringPtr :=
  { _x := fun a i => (t.z_obs q).x (256 * a + i)
    _z := fun a i => (t.z_obs q).z (256 * a + i)
    stride256 := 1 }

/-- Modelled from the spec: `ceil256(n)`, the next multiple of 256 at or above `n` (rows are
padded to a multiple of 256 bits). -/
def ceil256 (n : Nat) : Nat :=
  (n + 255) / 256 * 256

/-- Modelled from the spec: `any_non_zero(row_start, lane_count, stride)`, true when one of
the `lane_count` lanes reached from the start in steps of `stride` has a bit set. -/
def any_non_zero (data : Nat → Nat → Bool) (words256 stride256 : Nat) : Bool :=
  (List.range words256).any (fun k => (List.range 256).any (fun i => data (k * stride256) i))

/-- Modelled from the spec: the Pauli string `p` with the bit `b` XORed into its sign. -/
def PauliString.xor_sign (p : PauliString) (b : Bool) : PauliString :=
  { x := p.x, z := p.z, sign := p.sign ^^ b }

/-- Modelled from the spec: the image under the tableau of the single-qubit Pauli with bits
`(x, z)` at qubit `q`: identity, `X_obs[q]`, `Z_obs[q]`, or `i · X_obs[q] · Z_obs[q]` for
`Y`. -/
def Tableau.eval_local (t : Tableau) (q : Nat) (x z : Bool) : PauliString :=
  match x, z with
  | false, false => PauliString.zero
  | true, false => t.x_obs q
  | false, true => t.z_obs q
  | true, true => PauliString.mul_pow t.num_qubits (-1) (t.x_obs q) (t.z_obs q)

/-- Modelled from the spec: the image under the tableau of the Pauli string `p` of a gate,
whose qubit `j` is placed on `targets[j]`: the product of the local images, with the sign of
`p`. -/
def Tableau.scatter_eval (t : Tableau) (targets : List Nat) (p : PauliString) : PauliString :=
  let body := (List.range targets.length).foldl
    (fun acc j => PauliString.mul_pow t.num_qubits 0 acc
      (t.eval_local (targets.getD j 0) (p.x j) (p.z j)))
    PauliString.zero
  body.xor_sign p.sign

/-- Modelled from the spec: `Tableau::inplace_scatter_prepend(gate, targets)`, the gate is
applied before the stored Clifford: the new image of `X` (or `Z`) on `targets[i]` is the
stored image of what the gate makes of `X` (or `Z`) on its qubit `i`; the other rows stay. -/
def Tableau.inplace_scatter_prepend (t gate : Tableau) (targets : List Nat) : Tableau :=
  { num_qubits := t.num_qubits
    x_obs := fun k =>
      if List.indexOf k targets < targets.length
      then t.scatter_eval targets (gate.x_obs (List.indexOf k targets))
      else t.x_obs k
    z_obs := fun k =>
      if List.indexOf k targets < targets.length
      then t.scatter_eval targets (gate.z_obs (List.indexOf k targets))
      else t.z_obs k }

/-- Modelled from the spec: the tableau of a gate on `arity` qubits, the identity tableau
with the table row of the gate applied to every Pauli string. -/
def gate_tableau (arity : Nat) (row : PauliString → PauliString) : Tableau :=
  { num_qubits := arity
    x_obs := fun k => row ((Tableau.identity arity).x_obs k)
    z_obs := fun k => row ((Tableau.identity arity).z_obs k) }

/-- Modelled from the spec: `Tableau::prepend_H(q)`. -/
def Tableau.prepend_H (t : Tableau) (q : Nat) : Tableau :=
  t.inplace_scatter_prepend (gate_tableau 1 (fun p => p.apply_H 0)) [q]

/-- Modelled from the spec: `Tableau::prepend_H_XY(q)`. -/
def Tableau.prepend_H_XY (t : Tableau) (q : Nat) : Tableau :=
  t.inplace_scatter_prepend (gate_tableau 1 (fun p => p.apply_H_XY 0)) [q]

/-- Modelled from the spec: `Tableau::prepend_H_YZ(q)`. -/
def Tableau.prepend_H_YZ (t : Tableau) (q : Nat) : Tableau :=
  t.inplace_scatter_prepend (gate_tableau 1 (fun p => p.apply_H_YZ 0)) [q]

/-- Modelled from the spec: `Tableau::prepend_X(q)`. -/
def Tableau.prepend_X (t : Tableau) (q : Nat) : Tableau :=
  t.inplace_scatter_prepend (gate_tableau 1 (fun p => p.apply_X 0)) [q]

/-- Modelled from the spec: `Tableau::prepend_Y(q)`. -/
def Tableau.prepend_Y (t : Tableau) (q : Nat) : Tableau :=
  t.inplace_scatter_prepend (gate_tableau 1 (fun p => p.apply_Y 0)) [q]

/-- Modelled from the spec: `Tableau::prepend_Z(q)`. -/
def Tableau.prepend_Z (t : Tableau) (q : Nat) : Tableau :=
  t.inplace_scatter_prepend (gate_tableau 1 (fun p => p.apply_Z 0)) [q]

/-- Modelled from the spec: `Tableau::prepend_SQRT_Z(q)`. -/
def Tableau.prepend_SQRT_Z (t : Tableau) (q : Nat) : Tableau :=
  t.inplace_scatter_prepend (gate_tableau 1 (fun p => p.apply_SQRT_Z 0)) [q]

/-- Modelled from the spec: `Tableau::prepend_SQRT_Z_DAG(q)`. -/
def Tableau.prepend_SQRT_Z_DAG (t : Tableau) (q : Nat) : Tableau :=
  t.inplace_scatter_prepend (gate_tableau 1 (fun p => p.apply_SQRT_Z_DAG 0)) [q]

/-- Modelled from the spec: `Tableau::prepend_SQRT_X(q)`. -/
def Tableau.prepend_SQRT_X (t : Tableau) (q : Nat) : Tableau :=
  t.inplace_scatter_prepend (gate_tableau 1 (fun p => p.apply_SQRT_X 0)) [q]

/-- Modelled from the spec: `Tableau::prepend_SQRT_X_DAG(q)`. -/
def Tableau.prepend_SQRT_X_DAG (t : Tableau) (q : Nat) : Tableau :=
  t.inplace_scatter_prepend (gate_tableau 1 (fun p => p.apply_SQRT_X_DAG 0)) [q]

/-- Modelled from the spec: `Tableau::prepend_SQRT_Y(q)`. -/
def Tableau.prepend_SQRT_Y (t : Tableau) (q : Nat) : Tableau :=
  t.inplace_scatter_prepend (gate_tableau 1 (fun p => p.apply_SQRT_Y 0)) [q]

/-- Modelled from the spec: `Tableau::prepend_SQRT_Y_DAG(q)`. -/
def Tableau.prepend_SQRT_Y_DAG (t : Tableau) (q : Nat) : Tableau :=
  t.inplace_scatter_prepend (gate_tableau 1 (fun p => p.apply_SQRT_Y_DAG 0)) [q]

/-- Modelled from the spec: `Tableau::prepend_CX(c, t)`. -/
def Tableau.prepend_CX (t : Tableau) (c q : Nat) : Tableau :=
  t.inplace_scatter_prepend (gate_tableau 2 (fun p => p.apply_CX 0 1)) [c, q]

/-- Modelled from the spec: `Tableau::prepend_CY(c, t)`. -/
def Tableau.prepend_CY (t : Tableau) (c q : Nat) : Tableau :=
  t.inplace_scatter_prepend (gate_tableau 2 (fun p => p.apply_CY 0 1)) [c, q]

/-- Modelled from the spec: `Tableau::prepend_CZ(c, t)`. -/
def Tableau.prepend_CZ (t : Tableau) (c q : Nat) : Tableau :=
  t.inplace_scatter_prepend (gate_tableau 2 (fun p => p.apply_CZ 0 1)) [c, q]

/-! ## Block-transposed view -/

/-- Modelled from the spec: the block-transposed view of section 4.D (its class is outside
the source files).  It addresses the same bits as the tableau it was built from, so it is a
wrapper around that tableau; the source reads its field `tableau`. -/
structure BlockTransposedTableau where
  tableau : Tableau

/-- Modelled from the spec: `z_obs_x_bit(target, q)`, the `x` bit at index `q` of
`Z_obs[target]`. -/
def BlockTransposedTableau.z_obs_x_bit (t : BlockTransposedTableau) (target q : Nat) : Bool :=
  (t.tableau.z_obs target).x q

/-- Modelled from the spec: `z_obs_z_bit(target, q)`, the `z` bit at index `q` of
`Z_obs[target]`. -/
def BlockTransposedTableau.z_obs_z_bit (t : BlockTransposedTableau) (target q : Nat) : Bool :=
  (t.tableau.z_obs target).z q

/-- Modelled from the spec: `z_sign(target)` on the view, the sign bit of `Z_obs[target]`. -/
def BlockTransposedTableau.z_sign (t : BlockTransposedTableau) (target : Nat) : Bool :=
  (t.tableau.z_obs target).sign

/-- Modelled from the spec: an `append` primitive applies its table row to every Pauli
string of the tableau (section 4.C: the gate acts after the stored Clifford, on whole lanes
across all rows). -/
def BlockTransposedTableau.append_row_op (t : BlockTransposedTableau)
    (f : PauliString → PauliString) : BlockTransposedTableau :=
  { tableau :=
      { num_qubits := t.tableau.num_qubits
        x_obs := fun k => f (t.tableau.x_obs k)
        z_obs := fun k => f (t.tableau.z_obs k) } }

/-- Modelled from the spec: `append_CX(c, t)` on the view. -/
def BlockTransposedTableau.append_CX (t : BlockTransposedTableau) (c q : Nat) :
    BlockTransposedTableau :=
  t.append_row_op (fun p => p.apply_CX c q)

/-- Modelled from the spec: `append_H(q)` on the view. -/
def BlockTransposedTableau.append_H (t : BlockTransposedTableau) (q : Nat) :
    BlockTransposedTableau :=
  t.append_row_op (fun p => p.apply_H q)

/-- Modelled from the spec: `append_H_YZ(q)` on the view. -/
def BlockTransposedTableau.append_H_YZ (t : BlockTransposedTableau) (q : Nat) :
    BlockTransposedTableau :=
  t.append_row_op (fun p => p.apply_H_YZ q)

/-- Modelled from the spec: `append_X(q)` on the view. -/
def BlockTransposedTableau.append_X (t : BlockTransposedTableau) (q : Nat) :
    BlockTransposedTableau :=
  t.append_row_op (fun p => p.apply_X q)

/-! ## Random numbers -/

/-- The generator member `rng` of the simulator, seen as the sequence of raw values it will
produce (`stream k` is the `k`-th one) and the number `pos` of values consumed so far. -/
structure Rng where
  stream : Nat → Nat
  pos : Nat

/-- The call `std::bernoulli_distribution(bias)(rng)`: one value is consumed, scaled to a
uniform sample in `[0, 1)` with 53 bits, and the coin is true when the sample is below
`bias`. -/
def Rng.bernoulli (r : Rng) (bias : ℚ) : Bool × Rng :=
  (decide (((r.stream r.pos % 2 ^ 53 : Nat) : ℚ) < bias * 2 ^ 53),
   { stream := r.stream, pos := r.pos + 1 })

/-! ## The simulator -/

/-- The first loop of `ChpSim::measure_while_transposed`: the first `q < n` whose `x` bit of
`Z_obs[target]` is set.  `none` stands for the sentinel `SIZE_MAX`, which no `q < n` equals. -/
def find_pivot (transposed : BlockTransposedTableau) (target : Nat) : Option Nat :=
  (List.range transposed.tableau.num_qubits).find? (fun q => transposed.z_obs_x_bit target q)

/-- The second loop of `ChpSim::measure_while_transposed`: for `q` from `pivot + 1` up to
`n - 1`, append `CX(pivot, q)` when the `x` bit of `Z_obs[target]` at `q` is set in the
current view. -/
def cancel_loop (transposed : BlockTransposedTableau) (target pivot : Nat) :
    BlockTransposedTableau :=
  (List.range' (pivot + 1) (transposed.tableau.num_qubits - (pivot + 1))).foldl
    (fun tt q => if tt.z_obs_x_bit target q then tt.append_CX pivot q else tt) transposed

/-- `ChpSim::measure_while_transposed`: the result bit, the view after the call and the
generator after the call. -/
def measure_while_transposed (rng : Rng) (transposed : BlockTransposedTableau)
    (target : Nat) (bias : ℚ) : Bool × BlockTransposedTableau × Rng :=
  match find_pivot transposed target with
  | none =>
    -- Deterministic result.
    (transposed.z_sign target, transposed, rng)
  | some pivot =>
    -- Cancel out other X / Y components.
    let t1 := cancel_loop transposed target pivot
    -- Collapse the state.
    let t2 := if t1.z_obs_z_bit target pivot then t1.append_H_YZ pivot else t1.append_H pivot
    let coin := rng.bernoulli bias
    let coin_flip := coin.1
    let t3 := if t2.z_sign target != coin_flip then t2.append_X pivot else t2
    (coin_flip, t3, coin.2)

/-- Modelled from the spec: construction of the view from the tableau (section 4.D): the
view is built from the current tableau and addresses its bits. -/
def BlockTransposedTableau.create (t : Tableau) : BlockTransposedTableau :=
  { tableau := t }

/-- Modelled from the spec: the end of the life of the view.  The spec takes the view as the
authoritative state during the call and keeps its mutations, so the tableau read back is the
one the view holds. -/
def BlockTransposedTableau.release (t : BlockTransposedTableau) : Tableau :=
  t.tableau

/-- The state of a `ChpSim`: the inverse tableau `inv_state` and the generator `rng`. -/
structure ChpSim where
  inv_state : Tableau
  rng : Rng

/-- The constructor `ChpSim::ChpSim(num_qubits)`, `new(n_qubits)` in the specification.
The seed comes from `std::random_device`, so the generator of the new simulator is an
argument here. -/
def ChpSim.new (num_qubits : Nat) (seed : Rng) : ChpSim :=
  { inv_state := Tableau.identity num_qubits, rng := seed }

/-- `ChpSim::is_deterministic(target)`. -/
def ChpSim.is_deterministic (s : ChpSim) (target : Nat) : Bool :=
  let n := s.inv_state.num_qubits
  let p := s.inv_state.z_obs_ptr target
  !any_non_zero p._x (ceil256 n >>> 8) p.stride256

/-- `ChpSim::measure(target, bias)`: the result bit and the simulator after the call. -/
def ChpSim.measure (s : ChpSim) (target : Nat) (bias : ℚ) : Bool × ChpSim :=
  if s.is_deterministic target then
    (s.inv_state.z_sign target, s)
  else
    let temp_transposed := BlockTransposedTableau.create s.inv_state
    let r := measure_while_transposed s.rng temp_transposed target bias
    (r.1, { inv_state := r.2.1.release, rng := r.2.2 })

/-- The first loop of `ChpSim::measure_many`, over `k` in `ks`: it notes the deterministic
measurements in `finished` and `results` and whether some target is random. -/
def measure_many_first_pass (s : ChpSim) (targets : List Nat) (ks : List Nat)
    (init : List Bool × List Bool × Bool) : List Bool × List Bool × Bool :=
  ks.foldl
    (fun acc k =>
      if s.is_deterministic (targets.getD k 0) then
        (acc.1.set k true, acc.2.1.set k (s.inv_state.z_sign (targets.getD k 0)), acc.2.2)
      else
        (acc.1, acc.2.1, true))
    init

/-- The second loop of `ChpSim::measure_many`, over `k` in `ks`: every unfinished target is
measured on the shared view, in index order. -/
def measure_many_second_pass (targets : List Nat) (bias : ℚ) (finished : List Bool)
    (ks : List Nat) (init : List Bool × BlockTransposedTableau × Rng) :
    List Bool × BlockTransposedTableau × Rng :=
  ks.foldl
    (fun acc k =>
      if !finished.getD k false then
        let r := measure_while_transposed acc.2.2 acc.2.1 (targets.getD k 0) bias
        (acc.1.set k r.1, r.2.1, r.2.2)
      else acc)
    init

/-- `ChpSim::measure_many(targets, bias)`: the result bits and the simulator after the
call. -/
def ChpSim.measure_many (s : ChpSim) (targets : List Nat) (bias : ℚ) : List Bool × ChpSim :=
  let finished := List.replicate targets.length false
  let results := List.replicate targets.length false
  -- Note deterministic measurements.
  let first := measure_many_first_pass s targets (List.range targets.length)
    (finished, results, false)
  -- Handle remaining random measurements.
  if first.2.2 then
    let temp_transposed := BlockTransposedTableau.create s.inv_state
    let second := measure_many_second_pass targets bias first.1 (List.range targets.length)
      (first.2.1, temp_transposed, s.rng)
    (second.1, { inv_state := second.2.1.release, rng := second.2.2 })
  else
    (first.2.1, s)

/-- `ChpSim::H(q)`. -/
def ChpSim.H (s : ChpSim) (q : Nat) : ChpSim :=
  { s with inv_state := s.inv_state.prepend_H q }

/-- `ChpSim::H_XY(q)`. -/
def ChpSim.H_XY (s : ChpSim) (q : Nat) : ChpSim :=
  { s with inv_state := s.inv_state.prepend_H_XY q }

/-- `ChpSim::H_YZ(q)`. -/
def ChpSim.H_YZ (s : ChpSim) (q : Nat) : ChpSim :=
  { s with inv_state := s.inv_state.prepend_H_YZ q }

/-- `ChpSim::SQRT_Z(q)`: inverted because the inverse tableau is tracked. -/
def ChpSim.SQRT_Z (s : ChpSim) (q : Nat) : ChpSim :=
  { s with inv_state := s.inv_state.prepend_SQRT_Z_DAG q }

/-- `ChpSim::SQRT_Z_DAG(q)`: inverted because the inverse tableau is tracked. -/
def ChpSim.SQRT_Z_DAG (s : ChpSim) (q : Nat) : ChpSim :=
  { s with inv_state := s.inv_state.prepend_SQRT_Z q }

/-- `ChpSim::SQRT_X(q)`: inverted because the inverse tableau is tracked. -/
def ChpSim.SQRT_X (s : ChpSim) (q : Nat) : ChpSim :=
  { s with inv_state := s.inv_state.prepend_SQRT_X_DAG q }

/-- `ChpSim::SQRT_X_DAG(q)`: inverted because the inverse tableau is tracked. -/
def ChpSim.SQRT_X_DAG (s : ChpSim) (q : Nat) : ChpSim :=
  { s with inv_state := s.inv_state.prepend_SQRT_X q }

/-- `ChpSim::SQRT_Y(q)`: inverted because the inverse tableau is tracked. -/
def ChpSim.SQRT_Y (s : ChpSim) (q : Nat) : ChpSim :=
  { s with inv_state := s.inv_state.prepend_SQRT_Y_DAG q }

/-- `ChpSim::SQRT_Y_DAG(q)`: inverted because the inverse tableau is tracked. -/
def ChpSim.SQRT_Y_DAG (s : ChpSim) (q : Nat) : ChpSim :=
  { s with inv_state := s.inv_state.prepend_SQRT_Y q }

/-- `ChpSim::CX(c, t)`. -/
def ChpSim.CX (s : ChpSim) (c t : Nat) : ChpSim :=
  { s with inv_state := s.inv_state.prepend_CX c t }

/-- `ChpSim::CY(c, t)`. -/
def ChpSim.CY (s : ChpSim) (c t : Nat) : ChpSim :=
  { s with inv_state := s.inv_state.prepend_CY c t }

/-- `ChpSim::CZ(c, t)`. -/
def ChpSim.CZ (s : ChpSim) (c t : Nat) : ChpSim :=
  { s with inv_state := s.inv_state.prepend_CZ c t }

/-- `ChpSim::X(q)`. -/
def ChpSim.X (s : ChpSim) (q : Nat) : ChpSim :=
  { s with inv_state := s.inv_state.prepend_X q }

/-- `ChpSim::Y(q)`. -/
def ChpSim.Y (s : ChpSim) (q : Nat) : ChpSim :=
  { s with inv_state := s.inv_state.prepend_Y q }

/-- `ChpSim::Z(q)`. -/
def ChpSim.Z (s : ChpSim) (q : Nat) : ChpSim :=
  { s with inv_state := s.inv_state.prepend_Z q }

/-- What a call can throw: `std::out_of_range` from `at` on the gate table, and the
`InvalidArgument` the specification names. -/
inductive Failure where
  | out_of_range
  | invalid_argument
  deriving DecidableEq, Repr

/-- `ChpSim::op(name, targets)`.  The table `GATE_TABLEAUS` is populated outside the source
files, so it is an argument: `none` for a name that is not a key.  `at` throws
`std::out_of_range` for such a name. -/
def ChpSim.op (GATE_TABLEAUS : String → Option Tableau) (s : ChpSim) (name : String)
    (targets : List Nat) : Except Failure ChpSim :=
  match GATE_TABLEAUS name with
  | none => Except.error Failure.out_of_range
  | some gate =>
    Except.ok { s with inv_state := s.inv_state.inplace_scatter_prepend gate targets }

/-! ## Calls and reachable states -/

/-- A call of one of the fifteen gate methods of `ChpSim`. -/
inductive GateCall where
  | H (q : Nat)
  | H_XY (q : Nat)
  | H_YZ (q : Nat)
  | SQRT_Z (q : Nat)
  | SQRT_Z_DAG (q : Nat)
  | SQRT_X (q : Nat)
  | SQRT_X_DAG (q : Nat)
  | SQRT_Y (q : Nat)
  | SQRT_Y_DAG (q : Nat)
  | CX (c t : Nat)
  | CY (c t : Nat)
  | CZ (c t : Nat)
  | X (q : Nat)
  | Y (q : Nat)
  | Z (q : Nat)
  deriving DecidableEq, Repr

/-- The targets of a gate call are valid on `n` qubits: indices in `[0, n)`, and control
different from target for the two-qubit gates (section 6). -/
def GateCall.valid (n : Nat) : GateCall → Bool
  | .H q | .H_XY q | .H_YZ q | .SQRT_Z q | .SQRT_Z_DAG q | .SQRT_X q | .SQRT_X_DAG q
  | .SQRT_Y q | .SQRT_Y_DAG q | .X q | .Y q | .Z q => decide (q < n)
  | .CX c t | .CY c t | .CZ c t => decide (c < n) && decide (t < n) && decide (c ≠ t)

/-- The simulator after a gate call: the method of that name. -/
def ChpSim.call (s : ChpSim) : GateCall → ChpSim
  | .H q => s.H q
  | .H_XY q => s.H_XY q
  | .H_YZ q => s.H_YZ q
  | .SQRT_Z q => s.SQRT_Z q
  | .SQRT_Z_DAG q => s.SQRT_Z_DAG q
  | .SQRT_X q => s.SQRT_X q
  | .SQRT_X_DAG q => s.SQRT_X_DAG q
  | .SQRT_Y q => s.SQRT_Y q
  | .SQRT_Y_DAG q => s.SQRT_Y_DAG q
  | .CX c t => s.CX c t
  | .CY c t => s.CY c t
  | .CZ c t => s.CZ c t
  | .X q => s.X q
  | .Y q => s.Y q
  | .Z q => s.Z q

/-- The states a simulator can be in: a fresh one, and what gate-method calls with valid
targets, `measure` and `measure_many` on qubits below `n` make of a reachable state. -/
inductive Reachable : ChpSim → Prop where
  | fresh (num_qubits : Nat) (seed : Rng) : Reachable (ChpSim.new num_qubits seed)
  | gate (s : ChpSim) (g : GateCall) :
      Reachable s → g.valid s.inv_state.num_qubits = true → Reachable (s.call g)
  | measure (s : ChpSim) (target : Nat) (bias : ℚ) :
      Reachable s → target < s.inv_state.num_qubits → Reachable (s.measure target bias).2
  | measure_many (s : ChpSim) (targets : List Nat) (bias : ℚ) :
      Reachable s → (∀ q ∈ targets, q < s.inv_state.num_qubits) →
      Reachable (s.measure_many targets bias).2

/-- The padding of a Pauli string over `n` qubits is zero: no bit is set at an index at or
beyond `n`. -/
def PauliString.padding_zero (n : Nat) (p : PauliString) : Prop :=
  ∀ j, n ≤ j → p.x j = false ∧ p.z j = false

/-- The padding of a tableau is zero: no Pauli string has a bit set at an index at or beyond
`num_qubits` (section 3: padding bits beyond `cols` are always zero). -/
def Tableau.padding_zero (t : Tableau) : Prop :=
  ∀ k, (t.x_obs k).padding_zero t.num_qubits ∧ (t.z_obs k).padding_zero t.num_qubits

/-- Whether two Pauli strings anticommute over the first `n` qubits: the parity of the
number of qubits where their single-qubit Paulis anticommute (the symplectic form over
GF(2) of section 3). -/
def anticommutes : Nat → PauliString → PauliString → Bool
  | 0, _, _ => false
  | k + 1, p, q => anticommutes k p q ^^ ((p.x k && q.z k) ^^ (p.z k && q.x k))

/-- The commutation invariant of section 3: `X_obs[p]` anticommutes with `Z_obs[q]` iff
`p = q`, the `X_obs` commute with each other and the `Z_obs` commute with each other. -/
def Tableau.commutation_invariant (t : Tableau) : Prop :=
  ∀ p q, p < t.num_qubits → q < t.num_qubits →
    anticommutes t.num_qubits (t.x_obs p) (t.z_obs q) = decide (p = q) ∧
    anticommutes t.num_qubits (t.x_obs p) (t.x_obs q) = false ∧
    anticommutes t.num_qubits (t.z_obs p) (t.z_obs q) = false

/-! ## Example states -/

/-- A generator whose raw values are all zero. -/
def example_rng : Rng :=
  { stream := fun _ => 0, pos := 0 }

/-- The view that the random branch of `measure_while_transposed` leaves, as a function of
the pivot found and of the coin drawn: cancellation loop, collapse, and the `X` that
reconciles the sign with the coin. -/
def collapse_view (transposed : BlockTransposedTableau) (target pivot : Nat)
    (coin_flip : Bool) : BlockTransposedTableau :=
  let t1 := cancel_loop transposed target pivot
  let t2 := if t1.z_obs_z_bit target pivot then t1.append_H_YZ pivot else t1.append_H pivot
  if t2.z_sign target != coin_flip then t2.append_X pivot else t2

/-- The inverse tableau of the Bell pair: the identity on two qubits after `H(0)` and
`CX(0, 1)`. -/
def bell_tableau : Tableau :=
  ((Tableau.identity 2).prepend_H 0).prepend_CX 0 1

/-- Modelled from the spec: a gate table holding, under the names of section 6, the tableaux
of the gates whose action section 4.C tabulates (`S` and `S_DAG` are the names of `SQRT_Z`
and its dagger, `I` is the identity).  The real table is populated outside the source files
and has more names; properties of `op` that hold for every table take the table as an
argument. -/
def table_4C_gates (name : String) : Option Tableau :=
  if name = "I" then some (gate_tableau 1 (fun p => p))
  else if name = "X" then some (gate_tableau 1 (fun p => p.apply_X 0))
  else if name = "Y" then some (gate_tableau 1 (fun p => p.apply_Y 0))
  else if name = "Z" then some (gate_tableau 1 (fun p => p.apply_Z 0))
  else if name = "H" then some (gate_tableau 1 (fun p => p.apply_H 0))
  else if name = "H_XY" then some (gate_tableau 1 (fun p => p.apply_H_XY 0))
  else if name = "H_YZ" then some (gate_tableau 1 (fun p => p.apply_H_YZ 0))
  else if name = "SQRT_X" then some (gate_tableau 1 (fun p => p.apply_SQRT_X 0))
  else if name = "SQRT_X_DAG" then some (gate_tableau 1 (fun p => p.apply_SQRT_X_DAG 0))
  else if name = "SQRT_Y" then some (gate_tableau 1 (fun p => p.apply_SQRT_Y 0))
  else if name = "SQRT_Y_DAG" then some (gate_tableau 1 (fun p => p.apply_SQRT_Y_DAG 0))
  else if name = "S" then some (gate_tableau 1 (fun p => p.apply_SQRT_Z 0))
  else if name = "S_DAG" then some (gate_tableau 1 (fun p => p.apply_SQRT_Z_DAG 0))
  else if name = "CX" then some (gate_tableau 2 (fun p => p.apply_CX 0 1))
  else if name = "CY" then some (gate_tableau 2 (fun p => p.apply_CY 0 1))
  else if name = "CZ" then some (gate_tableau 2 (fun p => p.apply_CZ 0 1))
  else none

/-- A view in which `Z_obs[1]` has two `x` bits set: the identity on two qubits after `H(0)`,
`H(1)` and `CX(0, 1)`. -/
def two_x_view : BlockTransposedTableau :=
  BlockTransposedTableau.create
    ((((ChpSim.new 2 example_rng).H 0).H 1).CX 0 1).inv_state

/-- Measuring the targets one after another with `measure`, in list order: the result bits
and the simulator after the last call.  This is the sequential reading that the batched
`measure_many` is compared with. -/
def ChpSim.measure_sequence (s : ChpSim) (bias : ℚ) : List Nat → List Bool × ChpSim
  | [] => ([], s)
  | t :: ts =>
    let r := s.measure t bias
    let rest := ChpSim.measure_sequence r.2 bias ts
    (r.1 :: rest.1, rest.2)

/-- The inverse tableau of the GHZ state: the identity on three qubits after `H(0)`,
`CX(0, 1)` and `CX(1, 2)`. -/
def ghz_tableau : Tableau :=
  (((Tableau.identity 3).prepend_H 0).prepend_CX 0 1).prepend_CX 1 2

/-! ## SIMD words (`src/simd/simd_compat_128.h`) -/

/-- The register type `__m128i`, seen as its 16 bytes, least significant first. -/
structure m128i where
  bytes : Fin 16 → Fin 256

/-- The intrinsic `_mm_unpacklo_epi8(a, b)`: the low 8 bytes of `a` and of `b`,
interleaved, the byte of `a` first. -/
def _mm_unpacklo_epi8 (a b : m128i) : m128i :=
  { bytes := fun k =>
      if k.val % 2 = 0 then a.bytes ⟨k.val / 2, by omega⟩ else b.bytes ⟨k.val / 2, by omega⟩ }

/-- The intrinsic `_mm_unpackhi_epi8(a, b)`: the high 8 bytes of `a` and of `b`,
interleaved, the byte of `a` first. -/
def _mm_unpackhi_epi8 (a b : m128i) : m128i :=
  { bytes := fun k =>
      if k.val % 2 = 0 then a.bytes ⟨8 + k.val / 2, by omega⟩
      else b.bytes ⟨8 + k.val / 2, by omega⟩ }

/-- The struct `simd_word`. -/
structure simd_word where
  val : m128i

/-- `simd_word::do_interleave8_tile128(other)`: the two words after the call, `this`
first. -/
def simd_word.do_interleave8_tile128 (self other : simd_word) : simd_word × simd_word :=
  let t := _mm_unpackhi_epi8 self.val other.val
  let val := _mm_unpacklo_epi8 self.val other.val
  ({ val := val }, { val := t })

/-! ## Properties -/

theorem ceil256_shift (n : Nat) : ceil256 n >>> 8 = (n + 255) / 256 := by
  unfold ceil256
  rw [Nat.shiftRight_eq_div_pow]
  omega

theorem le_ceil256 (n : Nat) : n ≤ ceil256 n := by
  unfold ceil256
  omega

theorem any_non_zero_eq_true (data : Nat → Nat → Bool) (w : Nat) :
    any_non_zero data w 1 = true ↔ ∃ k, k < w ∧ ∃ i, i < 256 ∧ data k i = true := by
  unfold any_non_zero
  simp only [List.any_eq_true, List.mem_range, Nat.mul_one]

theorem is_deterministic_iff (s : ChpSim) (target : Nat) :
    s.is_deterministic target = true ↔
      ∀ j, j < ceil256 s.inv_state.num_qubits → (s.inv_state.z_obs target).x j = false := by
  unfold ChpSim.is_deterministic
  simp only [Tableau.z_obs_ptr, Bool.not_eq_true', ceil256_shift]
  rw [← Bool.not_eq_true, any_non_zero_eq_true]
  constructor
  · intro h j hj
    by_contra hx
    apply h
    refine ⟨j / 256, ?_, j % 256, Nat.mod_lt _ (by norm_num), ?_⟩
    · unfold ceil256 at hj
      omega
    · rw [Nat.div_add_mod]
      simpa using hx
  · rintro h ⟨k, hk, i, hi, hx⟩
    have := h (256 * k + i) (by unfold ceil256; omega)
    rw [this] at hx
    cases hx


theorem find_pivot_some (tt : BlockTransposedTableau) (target p : Nat)
    (h : find_pivot tt target = some p) :
    p < tt.tableau.num_qubits ∧ tt.z_obs_x_bit target p = true ∧
      ∀ j, j < p → tt.z_obs_x_bit target j = false := by
  unfold find_pivot at h
  rw [List.find?_range_eq_some] at h
  obtain ⟨h1, h2, h3⟩ := h
  refine ⟨List.mem_range.mp h2, h1, ?_⟩
  intro j hj
  simpa using h3 j hj

theorem find_pivot_none (tt : BlockTransposedTableau) (target : Nat)
    (h : find_pivot tt target = none) :
    ∀ j, j < tt.tableau.num_qubits → tt.z_obs_x_bit target j = false := by
  unfold find_pivot at h
  rw [List.find?_range_eq_none] at h
  intro j hj
  simpa using h j hj

theorem find_pivot_isSome (tt : BlockTransposedTableau) (target : Nat)
    (h : ∃ j, j < tt.tableau.num_qubits ∧ tt.z_obs_x_bit target j = true) :
    ∃ p, find_pivot tt target = some p := by
  cases hf : find_pivot tt target with
  | some p => exact ⟨p, rfl⟩
  | none =>
    obtain ⟨j, hj, hx⟩ := h
    have := find_pivot_none tt target hf j hj
    rw [hx] at this
    cases this

/-- The cancellation loop over any list of indices different from the pivot: the pivot bit
stays set, every listed index ends with its `x` bit cleared, the other bits stay. -/
theorem cancel_fold_spec (target pivot : Nat) (l : List Nat) :
    ∀ tt : BlockTransposedTableau, (∀ q ∈ l, q ≠ pivot) →
      tt.z_obs_x_bit target pivot = true →
      (l.foldl (fun tt q => if tt.z_obs_x_bit target q then tt.append_CX pivot q else tt)
          tt).tableau.num_qubits = tt.tableau.num_qubits ∧
      (l.foldl (fun tt q => if tt.z_obs_x_bit target q then tt.append_CX pivot q else tt)
          tt).z_obs_x_bit target pivot = true ∧
      ∀ j, (j ∈ l → (l.foldl
              (fun tt q => if tt.z_obs_x_bit target q then tt.append_CX pivot q else tt)
              tt).z_obs_x_bit target j = false) ∧
           (j ∉ l → (l.foldl
              (fun tt q => if tt.z_obs_x_bit target q then tt.append_CX pivot q else tt)
              tt).z_obs_x_bit target j = tt.z_obs_x_bit target j) := by
  induction l with
  | nil =>
    intro tt _ hp
    simp [hp]
  | cons a l ih =>
    intro tt hl hp
    have ha : a ≠ pivot := hl a (List.mem_cons_self a l)
    have hl' : ∀ q ∈ l, q ≠ pivot := fun q hq => hl q (List.mem_cons_of_mem a hq)
    simp only [List.foldl_cons]
    by_cases hx : tt.z_obs_x_bit target a = true
    · rw [if_pos hx]
      have hp' : (tt.append_CX pivot a).z_obs_x_bit target pivot = true := by
        simp only [BlockTransposedTableau.z_obs_x_bit, BlockTransposedTableau.append_CX,
          BlockTransposedTableau.append_row_op, PauliString.apply_CX] at hp ⊢
        rw [Function.update_noteq (Ne.symm ha)]
        exact hp
      obtain ⟨h1, h2, h3⟩ := ih (tt.append_CX pivot a) hl' hp'
      refine ⟨h1, h2, ?_⟩
      intro j
      constructor
      · intro hj
        by_cases hjl : j ∈ l
        · exact (h3 j).1 hjl
        · rw [(h3 j).2 hjl]
          have hja : j = a := by
            rcases List.mem_cons.mp hj with h | h
            · exact h
            · exact absurd h hjl
          subst hja
          simp only [BlockTransposedTableau.z_obs_x_bit, BlockTransposedTableau.append_CX,
            BlockTransposedTableau.append_row_op, PauliString.apply_CX] at hp hx ⊢
          simp [hp, hx]
      · intro hj
        have hja : j ≠ a := fun h => hj (h ▸ List.mem_cons_self a l)
        have hjl : j ∉ l := fun h => hj (List.mem_cons_of_mem a h)
        rw [(h3 j).2 hjl]
        simp only [BlockTransposedTableau.z_obs_x_bit, BlockTransposedTableau.append_CX,
          BlockTransposedTableau.append_row_op, PauliString.apply_CX]
        rw [Function.update_noteq hja]
    · rw [if_neg hx]
      obtain ⟨h1, h2, h3⟩ := ih tt hl' hp
      refine ⟨h1, h2, ?_⟩
      intro j
      constructor
      · intro hj
        by_cases hjl : j ∈ l
        · exact (h3 j).1 hjl
        · rw [(h3 j).2 hjl]
          have hja : j = a := by
            rcases List.mem_cons.mp hj with h | h
            · exact h
            · exact absurd h hjl
          subst hja
          simpa using hx
      · intro hj
        have hjl : j ∉ l := fun h => hj (List.mem_cons_of_mem a h)
        exact (h3 j).2 hjl

theorem cancel_loop_spec (tt : BlockTransposedTableau) (target pivot : Nat)
    (hp : tt.z_obs_x_bit target pivot = true) :
    (cancel_loop tt target pivot).tableau.num_qubits = tt.tableau.num_qubits ∧
    (cancel_loop tt target pivot).z_obs_x_bit target pivot = true ∧
    (∀ j, pivot < j → j < tt.tableau.num_qubits →
      (cancel_loop tt target pivot).z_obs_x_bit target j = false) ∧
    (∀ j, (j ≤ pivot ∨ tt.tableau.num_qubits ≤ j) →
      (cancel_loop tt target pivot).z_obs_x_bit target j = tt.z_obs_x_bit target j) := by
  have hl : ∀ q ∈ List.range' (pivot + 1) (tt.tableau.num_qubits - (pivot + 1)),
      q ≠ pivot := by
    intro q hq
    rw [List.mem_range'_1] at hq
    omega
  obtain ⟨h1, h2, h3⟩ := cancel_fold_spec target pivot _ tt hl hp
  refine ⟨h1, h2, ?_, ?_⟩
  · intro j hj1 hj2
    apply (h3 j).1
    rw [List.mem_range'_1]
    omega
  · intro j hj
    apply (h3 j).2
    rw [List.mem_range'_1]
    omega

/-- The collapse step: after the cancellation loop, the `H` or `H_YZ` at the pivot clears
the last `x` bit of `Z_obs[target]` and leaves its `z` bit at the pivot set. -/
theorem collapse_step_spec (t1 : BlockTransposedTableau) (target pivot : Nat)
    (hp : t1.z_obs_x_bit target pivot = true) :
    (if t1.z_obs_z_bit target pivot then t1.append_H_YZ pivot
      else t1.append_H pivot).tableau.num_qubits = t1.tableau.num_qubits ∧
    (if t1.z_obs_z_bit target pivot then t1.append_H_YZ pivot
      else t1.append_H pivot).z_obs_x_bit target pivot = false ∧
    (if t1.z_obs_z_bit target pivot then t1.append_H_YZ pivot
      else t1.append_H pivot).z_obs_z_bit target pivot = true ∧
    ∀ j, j ≠ pivot →
      (if t1.z_obs_z_bit target pivot then t1.append_H_YZ pivot
        else t1.append_H pivot).z_obs_x_bit target j = t1.z_obs_x_bit target j := by
  simp only [BlockTransposedTableau.z_obs_x_bit, BlockTransposedTableau.z_obs_z_bit] at hp ⊢
  by_cases hz : (t1.tableau.z_obs target).z pivot = true
  · rw [if_pos hz]
    simp only [BlockTransposedTableau.append_H_YZ, BlockTransposedTableau.append_row_op,
      PauliString.apply_H_YZ]
    refine ⟨trivial, by simp [hp, hz], hz, ?_⟩
    intro j hj
    rw [Function.update_noteq hj]
  · rw [if_neg hz]
    simp only [BlockTransposedTableau.append_H, BlockTransposedTableau.append_row_op,
      PauliString.apply_H]
    refine ⟨trivial, by simpa using hz, by simp [hp], ?_⟩
    intro j hj
    rw [Function.update_noteq hj]

/-- The reconciliation step: the conditional `X` at the pivot makes the sign of
`Z_obs[target]` equal to the coin and touches no bit. -/
theorem reconcile_step_spec (t2 : BlockTransposedTableau) (target pivot : Nat) (coin_flip : Bool)
    (hz : t2.z_obs_z_bit target pivot = true) :
    (if t2.z_sign target != coin_flip then t2.append_X pivot else t2).tableau.num_qubits
      = t2.tableau.num_qubits ∧
    (if t2.z_sign target != coin_flip then t2.append_X pivot else t2).z_sign target
      = coin_flip ∧
    ∀ j, (if t2.z_sign target != coin_flip then t2.append_X pivot else t2).z_obs_x_bit target j
      = t2.z_obs_x_bit target j := by
  simp only [BlockTransposedTableau.z_obs_x_bit, BlockTransposedTableau.z_obs_z_bit,
    BlockTransposedTableau.z_sign] at hz ⊢
  by_cases hs : ((t2.tableau.z_obs target).sign != coin_flip) = true
  · rw [if_pos hs]
    simp only [BlockTransposedTableau.append_X, BlockTransposedTableau.append_row_op,
      PauliString.apply_X]
    refine ⟨trivial, ?_, fun _ => trivial⟩
    rw [hz]
    revert hs
    cases (t2.tableau.z_obs target).sign <;> cases coin_flip <;> simp
  · rw [if_neg hs]
    refine ⟨rfl, ?_, fun _ => rfl⟩
    revert hs
    cases (t2.tableau.z_obs target).sign <;> cases coin_flip <;> simp

/-- The random branch of `measure_while_transposed`, with everything it guarantees. -/
theorem measure_while_transposed_random (rng : Rng) (transposed : BlockTransposedTableau)
    (target : Nat) (bias : ℚ) (pivot : Nat) (hp : find_pivot transposed target = some pivot) :
    (measure_while_transposed rng transposed target bias).1 = (rng.bernoulli bias).1 ∧
    (measure_while_transposed rng transposed target bias).2.2 = (rng.bernoulli bias).2 ∧
    (measure_while_transposed rng transposed target bias).2.1.tableau.num_qubits
      = transposed.tableau.num_qubits ∧
    (measure_while_transposed rng transposed target bias).2.1.z_sign target
      = (rng.bernoulli bias).1 ∧
    (∀ j, j < transposed.tableau.num_qubits →
      (measure_while_transposed rng transposed target bias).2.1.z_obs_x_bit target j = false) ∧
    (∀ j, transposed.tableau.num_qubits ≤ j →
      (measure_while_transposed rng transposed target bias).2.1.z_obs_x_bit target j
        = transposed.z_obs_x_bit target j) := by
  obtain ⟨hlt, hx, hmin⟩ := find_pivot_some transposed target pivot hp
  obtain ⟨c1, c2, c3, c4⟩ := cancel_loop_spec transposed target pivot hx
  obtain ⟨d1, d2, d3, d4⟩ :=
    collapse_step_spec (cancel_loop transposed target pivot) target pivot c2
  obtain ⟨e1, e2, e3⟩ := reconcile_step_spec
    (if (cancel_loop transposed target pivot).z_obs_z_bit target pivot
      then (cancel_loop transposed target pivot).append_H_YZ pivot
      else (cancel_loop transposed target pivot).append_H pivot) target pivot
    (rng.bernoulli bias).1 d3
  simp only [measure_while_transposed, hp]
  refine ⟨trivial, trivial, ?_, e2, ?_, ?_⟩
  · rw [e1, d1, c1]
  · intro j hj
    rw [e3 j]
    by_cases hjp : j = pivot
    · rw [hjp]; exact d2
    · rw [d4 j hjp]
      rcases Nat.lt_or_gt_of_ne hjp with h | h
      · rw [c4 j (Or.inl (Nat.le_of_lt h))]; exact hmin j h
      · exact c3 j h hj
  · intro j hj
    have hjp : j ≠ pivot := by omega
    rw [e3 j, d4 j hjp, c4 j (Or.inr hj)]

/-- C1. Random-branch collapse: when `Z_obs[target]` has an `x` bit set below `n`,
`measure_while_transposed` returns the coin that was drawn, and in the state it leaves
`Z_obs[target]` has no `x` bit below `n` (its padding bits are untouched) and
`z_sign(target)` equals that coin. -/
theorem measure_while_transposed_collapse (rng : Rng) (transposed : BlockTransposedTableau)
    (target : Nat) (bias : ℚ)
    (h : ∃ j, j < transposed.tableau.num_qubits ∧ transposed.z_obs_x_bit target j = true) :
    (measure_while_transposed rng transposed target bias).1 = (rng.bernoulli bias).1 ∧
    (∀ j, j < transposed.tableau.num_qubits →
      (measure_while_transposed rng transposed target bias).2.1.z_obs_x_bit target j = false) ∧
    (∀ j, transposed.tableau.num_qubits ≤ j →
      (measure_while_transposed rng transposed target bias).2.1.z_obs_x_bit target j
        = transposed.z_obs_x_bit target j) ∧
    (measure_while_transposed rng transposed target bias).2.1.z_sign target
      = (rng.bernoulli bias).1 := by
  obtain ⟨pivot, hp⟩ := find_pivot_isSome transposed target h
  obtain ⟨h1, _, _, h4, h5, h6⟩ :=
    measure_while_transposed_random rng transposed target bias pivot hp
  exact ⟨h1, h5, h6, h4⟩

theorem bernoulli_zero (r : Rng) : (r.bernoulli 0).1 = false := by
  simp [Rng.bernoulli]

theorem bernoulli_one (r : Rng) : (r.bernoulli 1).1 = true := by
  simp only [Rng.bernoulli, one_mul, decide_eq_true_eq]
  have h : r.stream r.pos % 2 ^ 53 < 2 ^ 53 := Nat.mod_lt _ (by norm_num)
  exact_mod_cast h

theorem identity_z_obs_x (n q j : Nat) : ((Tableau.identity n).z_obs q).x j = false := by
  unfold Tableau.identity
  by_cases h : q < n <;> simp [h, PauliString.single_Z, PauliString.zero]

theorem identity_z_sign (n q : Nat) : (Tableau.identity n).z_sign q = false := by
  unfold Tableau.identity Tableau.z_sign
  by_cases h : q < n <;> simp [h, PauliString.single_Z, PauliString.zero]

theorem measure_of_deterministic (s : ChpSim) (target : Nat) (bias : ℚ)
    (h : s.is_deterministic target = true) :
    s.measure target bias = (s.inv_state.z_sign target, s) := by
  unfold ChpSim.measure
  rw [if_pos h]

/-- C3. On a freshly constructed simulator every qubit `q < n` is deterministic and
`measure(q, bias)` returns 0, whatever the bias. -/
theorem fresh_measure_zero (n : Nat) (seed : Rng) (q : Nat) (bias : ℚ) (_hq : q < n) :
    (ChpSim.new n seed).is_deterministic q = true ∧
      ((ChpSim.new n seed).measure q bias).1 = false := by
  have hd : (ChpSim.new n seed).is_deterministic q = true := by
    rw [is_deterministic_iff]
    intro j _
    exact identity_z_obs_x n q j
  refine ⟨hd, ?_⟩
  rw [measure_of_deterministic _ _ _ hd]
  exact identity_z_sign n q

theorem fresh_measure_zero_witness :
    (ChpSim.new 1 example_rng).is_deterministic 0 = true ∧
      ((ChpSim.new 1 example_rng).measure 0 (1 / 2)).1 = false :=
  fresh_measure_zero 1 example_rng 0 (1 / 2) (by decide)

/-- C4. Deterministic branch: when `is_deterministic(q)` holds, `measure(q, bias)` returns
the sign bit of `Z_obs[q]` for every bias, leaves the generator where it was (no coin is
drawn) and leaves the tableau unchanged. -/
theorem measure_deterministic_branch (s : ChpSim) (q : Nat) (bias : ℚ)
    (h : s.is_deterministic q = true) :
    (s.measure q bias).1 = (s.inv_state.z_obs q).sign ∧
      (s.measure q bias).2.rng = s.rng ∧
      (s.measure q bias).2.inv_state = s.inv_state := by
  rw [measure_of_deterministic s q bias h]
  exact ⟨rfl, rfl, rfl⟩

theorem measure_deterministic_branch_witness :
    ((ChpSim.new 1 example_rng).measure 0 (1 / 2)).1
        = ((ChpSim.new 1 example_rng).inv_state.z_obs 0).sign ∧
      ((ChpSim.new 1 example_rng).measure 0 (1 / 2)).2.rng = (ChpSim.new 1 example_rng).rng ∧
      ((ChpSim.new 1 example_rng).measure 0 (1 / 2)).2.inv_state
        = (ChpSim.new 1 example_rng).inv_state :=
  measure_deterministic_branch (ChpSim.new 1 example_rng) 0 (1 / 2) (by decide)

/-! ### Padding stays zero -/

theorem padding_zero_zero (n : Nat) : PauliString.zero.padding_zero n := by
  intro j _
  exact ⟨rfl, rfl⟩

theorem padding_zero_mul_pow (n : Nat) (k : Int) (p q : PauliString)
    (hp : p.padding_zero n) (hq : q.padding_zero n) :
    (PauliString.mul_pow n k p q).padding_zero n := by
  intro j hj
  simp [PauliString.mul_pow, (hp j hj).1, (hp j hj).2, (hq j hj).1, (hq j hj).2]

theorem padding_zero_eval_local (t : Tableau) (h : t.padding_zero) (q : Nat) (x z : Bool) :
    (t.eval_local q x z).padding_zero t.num_qubits := by
  unfold Tableau.eval_local
  cases x <;> cases z <;> simp only
  · exact padding_zero_zero _
  · exact (h q).2
  · exact (h q).1
  · exact padding_zero_mul_pow _ _ _ _ (h q).1 (h q).2

theorem padding_zero_scatter_fold (t : Tableau) (h : t.padding_zero) (targets : List Nat)
    (p : PauliString) (l : List Nat) :
    ∀ acc : PauliString, acc.padding_zero t.num_qubits →
      (l.foldl (fun acc j => PauliString.mul_pow t.num_qubits 0 acc
        (t.eval_local (targets.getD j 0) (p.x j) (p.z j))) acc).padding_zero t.num_qubits := by
  induction l with
  | nil => intro acc hacc; exact hacc
  | cons a l ih =>
    intro acc hacc
    rw [List.foldl_cons]
    exact ih _ (padding_zero_mul_pow _ _ _ _ hacc (padding_zero_eval_local t h _ _ _))

theorem padding_zero_scatter_eval (t : Tableau) (h : t.padding_zero) (targets : List Nat)
    (p : PauliString) : (t.scatter_eval targets p).padding_zero t.num_qubits := by
  intro j hj
  exact padding_zero_scatter_fold t h targets p _ _ (padding_zero_zero _) j hj

theorem padding_zero_inplace_scatter_prepend (t gate : Tableau) (targets : List Nat)
    (h : t.padding_zero) : (t.inplace_scatter_prepend gate targets).padding_zero := by
  intro k
  simp only [Tableau.inplace_scatter_prepend]
  constructor
  · split
    · exact padding_zero_scatter_eval t h targets _
    · exact (h k).1
  · split
    · exact padding_zero_scatter_eval t h targets _
    · exact (h k).2

theorem call_num_qubits (s : ChpSim) (g : GateCall) :
    (s.call g).inv_state.num_qubits = s.inv_state.num_qubits := by
  cases g <;> rfl

theorem call_rng (s : ChpSim) (g : GateCall) : (s.call g).rng = s.rng := by
  cases g <;> rfl

theorem padding_zero_call (s : ChpSim) (g : GateCall) (h : s.inv_state.padding_zero) :
    (s.call g).inv_state.padding_zero := by
  cases g <;> exact padding_zero_inplace_scatter_prepend _ _ _ h

theorem padding_zero_append_row_op (tt : BlockTransposedTableau)
    (f : PauliString → PauliString) (h : tt.tableau.padding_zero)
    (hf : ∀ p : PauliString, p.padding_zero tt.tableau.num_qubits →
      (f p).padding_zero tt.tableau.num_qubits) :
    (tt.append_row_op f).tableau.padding_zero := by
  intro k
  exact ⟨hf _ (h k).1, hf _ (h k).2⟩

theorem padding_zero_apply_CX (n c t : Nat) (hc : c < n) (ht : t < n) (p : PauliString)
    (h : p.padding_zero n) : (p.apply_CX c t).padding_zero n := by
  intro j hj
  have h1 : j ≠ t := by omega
  have h2 : j ≠ c := by omega
  simp only [PauliString.apply_CX, Function.update_noteq h1, Function.update_noteq h2]
  exact h j hj

theorem padding_zero_apply_H (n q : Nat) (hq : q < n) (p : PauliString)
    (h : p.padding_zero n) : (p.apply_H q).padding_zero n := by
  intro j hj
  have h1 : j ≠ q := by omega
  simp only [PauliString.apply_H, Function.update_noteq h1]
  exact h j hj

theorem padding_zero_apply_H_YZ (n q : Nat) (hq : q < n) (p : PauliString)
    (h : p.padding_zero n) : (p.apply_H_YZ q).padding_zero n := by
  intro j hj
  have h1 : j ≠ q := by omega
  simp only [PauliString.apply_H_YZ, Function.update_noteq h1]
  exact h j hj

theorem padding_zero_apply_X (n q : Nat) (p : PauliString)
    (h : p.padding_zero n) : (p.apply_X q).padding_zero n := by
  intro j hj
  exact h j hj

theorem padding_zero_cancel_fold (target pivot n : Nat) (hp : pivot < n) (l : List Nat) :
    ∀ tt : BlockTransposedTableau, (∀ q ∈ l, q < n) → tt.tableau.num_qubits = n →
      tt.tableau.padding_zero →
      (l.foldl (fun tt q => if tt.z_obs_x_bit target q then tt.append_CX pivot q else tt)
          tt).tableau.padding_zero := by
  induction l with
  | nil => intro tt _ _ h; exact h
  | cons a l ih =>
    intro tt hl hn h
    rw [List.foldl_cons]
    have ha : a < n := hl a (List.mem_cons_self a l)
    have hl' : ∀ q ∈ l, q < n := fun q hq => hl q (List.mem_cons_of_mem a hq)
    split
    · refine ih (tt.append_CX pivot a) hl' hn ?_
      apply padding_zero_append_row_op tt _ h
      intro p hpz
      rw [hn] at hpz ⊢
      exact padding_zero_apply_CX n pivot a hp ha p hpz
    · exact ih tt hl' hn h

theorem padding_zero_cancel_loop (tt : BlockTransposedTableau) (target pivot : Nat)
    (hp : pivot < tt.tableau.num_qubits) (h : tt.tableau.padding_zero) :
    (cancel_loop tt target pivot).tableau.padding_zero := by
  apply padding_zero_cancel_fold target pivot tt.tableau.num_qubits hp _ tt _ rfl h
  intro q hq
  rw [List.mem_range'_1] at hq
  omega

theorem cancel_loop_num_qubits (tt : BlockTransposedTableau) (target pivot : Nat) :
    (cancel_loop tt target pivot).tableau.num_qubits = tt.tableau.num_qubits := by
  unfold cancel_loop
  generalize List.range' (pivot + 1) (tt.tableau.num_qubits - (pivot + 1)) = l
  induction l generalizing tt with
  | nil => rfl
  | cons a l ih =>
    rw [List.foldl_cons]
    split
    · rw [ih]; rfl
    · exact ih tt

theorem measure_while_transposed_num_qubits (rng : Rng) (tt : BlockTransposedTableau)
    (target : Nat) (bias : ℚ) :
    (measure_while_transposed rng tt target bias).2.1.tableau.num_qubits
      = tt.tableau.num_qubits := by
  unfold measure_while_transposed
  cases hf : find_pivot tt target with
  | none => rfl
  | some pivot =>
    simp only
    split <;> split <;>
      simp [BlockTransposedTableau.append_X, BlockTransposedTableau.append_H,
        BlockTransposedTableau.append_H_YZ, BlockTransposedTableau.append_row_op,
        cancel_loop_num_qubits]

theorem padding_zero_measure_while_transposed (rng : Rng) (tt : BlockTransposedTableau)
    (target : Nat) (bias : ℚ) (h : tt.tableau.padding_zero) :
    (measure_while_transposed rng tt target bias).2.1.tableau.padding_zero := by
  unfold measure_while_transposed
  cases hf : find_pivot tt target with
  | none => exact h
  | some pivot =>
    have hp : pivot < tt.tableau.num_qubits := (find_pivot_some tt target pivot hf).1
    have h1 := padding_zero_cancel_loop tt target pivot hp h
    have hn := cancel_loop_num_qubits tt target pivot
    have hp1 : pivot < (cancel_loop tt target pivot).tableau.num_qubits := by rw [hn]; exact hp
    have h2 : (if (cancel_loop tt target pivot).z_obs_z_bit target pivot
        then (cancel_loop tt target pivot).append_H_YZ pivot
        else (cancel_loop tt target pivot).append_H pivot).tableau.padding_zero := by
      split
      · exact padding_zero_append_row_op _ _ h1
          (fun p hpz => padding_zero_apply_H_YZ _ pivot hp1 p hpz)
      · exact padding_zero_append_row_op _ _ h1
          (fun p hpz => padding_zero_apply_H _ pivot hp1 p hpz)
    have key : ∀ t2 : BlockTransposedTableau, t2.tableau.padding_zero →
        (if t2.z_sign target != (rng.bernoulli bias).1 then t2.append_X pivot
          else t2).tableau.padding_zero := by
      intro t2 ht2
      split
      · exact padding_zero_append_row_op _ _ ht2
          (fun p hpz => padding_zero_apply_X _ pivot p hpz)
      · exact ht2
    exact key _ h2

theorem measure_num_qubits (s : ChpSim) (target : Nat) (bias : ℚ) :
    (s.measure target bias).2.inv_state.num_qubits = s.inv_state.num_qubits := by
  unfold ChpSim.measure
  split
  · rfl
  · exact measure_while_transposed_num_qubits _ _ _ _

theorem padding_zero_measure (s : ChpSim) (target : Nat) (bias : ℚ)
    (h : s.inv_state.padding_zero) : (s.measure target bias).2.inv_state.padding_zero := by
  unfold ChpSim.measure
  split
  · exact h
  · exact padding_zero_measure_while_transposed _ _ _ _ h

theorem second_pass_num_qubits (targets : List Nat) (bias : ℚ) (finished : List Bool)
    (ks : List Nat) :
    ∀ init : List Bool × BlockTransposedTableau × Rng,
      (measure_many_second_pass targets bias finished ks init).2.1.tableau.num_qubits
        = init.2.1.tableau.num_qubits := by
  induction ks with
  | nil => intro init; rfl
  | cons k ks ih =>
    intro init
    unfold measure_many_second_pass
    rw [List.foldl_cons]
    split
    · exact (ih _).trans (measure_while_transposed_num_qubits _ _ _ _)
    · exact ih init

theorem padding_zero_second_pass (targets : List Nat) (bias : ℚ) (finished : List Bool)
    (ks : List Nat) :
    ∀ init : List Bool × BlockTransposedTableau × Rng, init.2.1.tableau.padding_zero →
      (measure_many_second_pass targets bias finished ks init).2.1.tableau.padding_zero := by
  induction ks with
  | nil => intro init hp; exact hp
  | cons k ks ih =>
    intro init hp
    unfold measure_many_second_pass
    rw [List.foldl_cons]
    split
    · exact ih _ (padding_zero_measure_while_transposed _ _ _ _ hp)
    · exact ih init hp

theorem measure_many_num_qubits (s : ChpSim) (targets : List Nat) (bias : ℚ) :
    (s.measure_many targets bias).2.inv_state.num_qubits = s.inv_state.num_qubits := by
  unfold ChpSim.measure_many
  simp only
  split
  · exact second_pass_num_qubits targets bias _ _ _
  · rfl

theorem padding_zero_measure_many (s : ChpSim) (targets : List Nat) (bias : ℚ)
    (h : s.inv_state.padding_zero) :
    (s.measure_many targets bias).2.inv_state.padding_zero := by
  unfold ChpSim.measure_many
  simp only
  split
  · exact padding_zero_second_pass targets bias _ _ _ h
  · exact h

theorem padding_zero_identity (n : Nat) : (Tableau.identity n).padding_zero := by
  intro k
  unfold Tableau.identity
  by_cases hk : k < n
  · simp only [hk, if_true]
    constructor <;> intro j hj <;>
      simp [PauliString.single_X, PauliString.single_Z] <;> omega
  · simp only [hk, if_false]
    exact ⟨padding_zero_zero _, padding_zero_zero _⟩

/-- Every reachable state has a tableau whose padding is zero. -/
theorem reachable_padding_zero (s : ChpSim) (h : Reachable s) : s.inv_state.padding_zero := by
  induction h with
  | fresh n seed => exact padding_zero_identity n
  | gate s g _ _ ih => exact padding_zero_call s g ih
  | measure s target bias _ _ ih => exact padding_zero_measure s target bias ih
  | measure_many s targets bias _ _ ih => exact padding_zero_measure_many s targets bias ih

/-! ### The two branches of `measure` -/

theorem find_pivot_of_not_deterministic (s : ChpSim) (target : Nat)
    (hpad : s.inv_state.padding_zero) (h : s.is_deterministic target = false) :
    ∃ pivot, find_pivot (BlockTransposedTableau.create s.inv_state) target = some pivot := by
  apply find_pivot_isSome
  by_contra hne
  have hd : s.is_deterministic target = true := by
    rw [is_deterministic_iff]
    intro j _
    by_cases hj : j < s.inv_state.num_qubits
    · by_contra hx
      exact hne ⟨j, hj, by simpa using hx⟩
    · exact ((hpad target).2 j (Nat.le_of_not_lt hj)).1
  rw [hd] at h
  cases h

theorem measure_of_not_deterministic (s : ChpSim) (target : Nat) (bias : ℚ)
    (h : s.is_deterministic target = false) :
    s.measure target bias =
      ((measure_while_transposed s.rng (BlockTransposedTableau.create s.inv_state)
          target bias).1,
       { inv_state := (measure_while_transposed s.rng
            (BlockTransposedTableau.create s.inv_state) target bias).2.1.release
         rng := (measure_while_transposed s.rng
            (BlockTransposedTableau.create s.inv_state) target bias).2.2 }) := by
  unfold ChpSim.measure
  rw [if_neg (by rw [h]; simp)]

/-- C5. On a state whose padding is zero, measuring a non-deterministic target returns
exactly the Bernoulli(bias) coin drawn from the generator, which advances by that one draw;
with bias 0 the result is 0 and with bias 1 it is 1. -/
theorem measure_random_branch (s : ChpSim) (q : Nat) (bias : ℚ)
    (hpad : s.inv_state.padding_zero) (h : s.is_deterministic q = false) :
    (s.measure q bias).1 = (s.rng.bernoulli bias).1 ∧
      (s.measure q bias).2.rng = (s.rng.bernoulli bias).2 ∧
      (s.measure q 0).1 = false ∧ (s.measure q 1).1 = true := by
  obtain ⟨pivot, hp⟩ := find_pivot_of_not_deterministic s q hpad h
  have key : ∀ b : ℚ, (s.measure q b).1 = (s.rng.bernoulli b).1 ∧
      (s.measure q b).2.rng = (s.rng.bernoulli b).2 := by
    intro b
    rw [measure_of_not_deterministic s q b h]
    obtain ⟨h1, h2, _⟩ := measure_while_transposed_random s.rng
      (BlockTransposedTableau.create s.inv_state) q b pivot hp
    exact ⟨h1, h2⟩
  refine ⟨(key bias).1, (key bias).2, ?_, ?_⟩
  · rw [(key 0).1]; exact bernoulli_zero s.rng
  · rw [(key 1).1]; exact bernoulli_one s.rng

theorem measure_random_branch_witness :
    (((ChpSim.new 1 example_rng).H 0).measure 0 0).1
        = (((ChpSim.new 1 example_rng).H 0).rng.bernoulli 0).1 ∧
      (((ChpSim.new 1 example_rng).H 0).measure 0 0).2.rng
        = (((ChpSim.new 1 example_rng).H 0).rng.bernoulli 0).2 ∧
      (((ChpSim.new 1 example_rng).H 0).measure 0 0).1 = false ∧
      (((ChpSim.new 1 example_rng).H 0).measure 0 1).1 = true :=
  measure_random_branch ((ChpSim.new 1 example_rng).H 0) 0 0
    (reachable_padding_zero _
      (Reachable.gate _ (GateCall.H 0) (Reachable.fresh 1 example_rng) (by decide)))
    (by decide)

theorem measure_then_deterministic (s : ChpSim) (q : Nat) (bias : ℚ)
    (hpad : s.inv_state.padding_zero) :
    (s.measure q bias).2.is_deterministic q = true ∧
      (s.measure q bias).2.inv_state.z_sign q = (s.measure q bias).1 := by
  cases hd : s.is_deterministic q with
  | true =>
    rw [measure_of_deterministic s q bias hd]
    exact ⟨hd, rfl⟩
  | false =>
    obtain ⟨pivot, hp⟩ := find_pivot_of_not_deterministic s q hpad hd
    rw [measure_of_not_deterministic s q bias hd]
    obtain ⟨h1, _, h3, h4, h5, h6⟩ := measure_while_transposed_random s.rng
      (BlockTransposedTableau.create s.inv_state) q bias pivot hp
    constructor
    · rw [is_deterministic_iff]
      intro j _
      by_cases hj : j < s.inv_state.num_qubits
      · exact h5 j hj
      · have := h6 j (Nat.le_of_not_lt hj)
        simp only [BlockTransposedTableau.z_obs_x_bit] at this
        exact this.trans ((hpad q).2 j (Nat.le_of_not_lt hj)).1
    · rw [h1]
      exact h4

/-- C2. Measurement is repeatable: on a reachable state, after `measure(q, b1)` has
returned `r`, the qubit `q` is deterministic and `measure(q, b2)` returns `r` again. -/
theorem measure_repeatable (s : ChpSim) (q : Nat) (b1 b2 : ℚ) (hr : Reachable s) :
    (s.measure q b1).2.is_deterministic q = true ∧
      ((s.measure q b1).2.measure q b2).1 = (s.measure q b1).1 := by
  obtain ⟨hd, hs⟩ := measure_then_deterministic s q b1 (reachable_padding_zero s hr)
  refine ⟨hd, ?_⟩
  rw [measure_of_deterministic _ q b2 hd]
  exact hs

theorem measure_repeatable_witness :
    ((((ChpSim.new 1 example_rng).H 0).measure 0 1).2.is_deterministic 0 = true) ∧
      ((((ChpSim.new 1 example_rng).H 0).measure 0 1).2.measure 0 0).1
        = (((ChpSim.new 1 example_rng).H 0).measure 0 1).1 :=
  measure_repeatable ((ChpSim.new 1 example_rng).H 0) 0 1 0
    (Reachable.gate _ (GateCall.H 0) (Reachable.fresh 1 example_rng) (by decide))

theorem measure_while_transposed_collapse_witness :
    ((measure_while_transposed example_rng
        (BlockTransposedTableau.create ((ChpSim.new 1 example_rng).H 0).inv_state) 0 (1 / 2)).1
      = (example_rng.bernoulli (1 / 2)).1) ∧
    (∀ j, j < (BlockTransposedTableau.create
        ((ChpSim.new 1 example_rng).H 0).inv_state).tableau.num_qubits →
      (measure_while_transposed example_rng
        (BlockTransposedTableau.create ((ChpSim.new 1 example_rng).H 0).inv_state) 0
        (1 / 2)).2.1.z_obs_x_bit 0 j = false) ∧
    (∀ j, (BlockTransposedTableau.create
        ((ChpSim.new 1 example_rng).H 0).inv_state).tableau.num_qubits ≤ j →
      (measure_while_transposed example_rng
        (BlockTransposedTableau.create ((ChpSim.new 1 example_rng).H 0).inv_state) 0
        (1 / 2)).2.1.z_obs_x_bit 0 j
        = (BlockTransposedTableau.create
            ((ChpSim.new 1 example_rng).H 0).inv_state).z_obs_x_bit 0 j) ∧
    (measure_while_transposed example_rng
        (BlockTransposedTableau.create ((ChpSim.new 1 example_rng).H 0).inv_state) 0
        (1 / 2)).2.1.z_sign 0 = (example_rng.bernoulli (1 / 2)).1 :=
  measure_while_transposed_collapse example_rng
    (BlockTransposedTableau.create ((ChpSim.new 1 example_rng).H 0).inv_state) 0 (1 / 2)
    ⟨0, by decide, by decide⟩


/-! ### The `prepend` primitives, gate by gate -/

theorem phase_qubit_false_left (x z : Bool) : phase_qubit false false x z = 0 := by
  cases x <;> cases z <;> rfl

theorem phase_count_zero_left (n : Nat) (p : PauliString) :
    phase_count n PauliString.zero p = 0 := by
  induction n with
  | zero => rfl
  | succ k ih =>
    show phase_count k PauliString.zero p + phase_qubit false false (p.x k) (p.z k) = 0
    rw [ih, phase_qubit_false_left]
    rfl

theorem mul_pow_zero_left (n : Nat) (p : PauliString) :
    PauliString.mul_pow n 0 PauliString.zero p = p := by
  cases p with
  | mk x z sign =>
    simp only [PauliString.mul_pow, phase_count_zero_left]
    simp [PauliString.zero]

theorem xor_sign_false (p : PauliString) : p.xor_sign false = p := by
  cases p
  simp [PauliString.xor_sign]

theorem scatter_eval_single (t : Tableau) (q : Nat) (p : PauliString) :
    t.scatter_eval [q] p = (t.eval_local q (p.x 0) (p.z 0)).xor_sign p.sign := by
  simp [Tableau.scatter_eval, List.range_succ, mul_pow_zero_left]

theorem inplace_scatter_prepend_single (t gate : Tableau) (q : Nat) :
    t.inplace_scatter_prepend gate [q] =
      { num_qubits := t.num_qubits
        x_obs := Function.update t.x_obs q
          ((t.eval_local q ((gate.x_obs 0).x 0) ((gate.x_obs 0).z 0)).xor_sign
            (gate.x_obs 0).sign)
        z_obs := Function.update t.z_obs q
          ((t.eval_local q ((gate.z_obs 0).x 0) ((gate.z_obs 0).z 0)).xor_sign
            (gate.z_obs 0).sign) } := by
  unfold Tableau.inplace_scatter_prepend
  congr 1
  · funext k
    by_cases hk : k = q
    · subst hk
      simp [scatter_eval_single]
    · have : ¬ List.indexOf k [q] < 1 := by
        simp [List.indexOf_cons, hk]
      simp [this, Function.update_noteq hk]
  · funext k
    by_cases hk : k = q
    · subst hk
      simp [scatter_eval_single]
    · have : ¬ List.indexOf k [q] < 1 := by
        simp [List.indexOf_cons, hk]
      simp [this, Function.update_noteq hk]

theorem prepend_X_eq (t : Tableau) (q : Nat) :
    t.prepend_X q =
      { num_qubits := t.num_qubits
        x_obs := t.x_obs
        z_obs := Function.update t.z_obs q ((t.z_obs q).xor_sign true) } := by
  unfold Tableau.prepend_X
  rw [inplace_scatter_prepend_single]
  simp [gate_tableau, Tableau.identity, PauliString.single_X, PauliString.single_Z,
    PauliString.apply_X, Tableau.eval_local, xor_sign_false]

theorem prepend_Z_eq (t : Tableau) (q : Nat) :
    t.prepend_Z q =
      { num_qubits := t.num_qubits
        x_obs := Function.update t.x_obs q ((t.x_obs q).xor_sign true)
        z_obs := t.z_obs } := by
  unfold Tableau.prepend_Z
  rw [inplace_scatter_prepend_single]
  simp [gate_tableau, Tableau.identity, PauliString.single_X, PauliString.single_Z,
    PauliString.apply_Z, Tableau.eval_local, xor_sign_false]

theorem prepend_Y_eq (t : Tableau) (q : Nat) :
    t.prepend_Y q =
      { num_qubits := t.num_qubits
        x_obs := Function.update t.x_obs q ((t.x_obs q).xor_sign true)
        z_obs := Function.update t.z_obs q ((t.z_obs q).xor_sign true) } := by
  unfold Tableau.prepend_Y
  rw [inplace_scatter_prepend_single]
  simp [gate_tableau, Tableau.identity, PauliString.single_X, PauliString.single_Z,
    PauliString.apply_Y, Tableau.eval_local, xor_sign_false]

theorem prepend_H_eq (t : Tableau) (q : Nat) :
    t.prepend_H q =
      { num_qubits := t.num_qubits
        x_obs := Function.update t.x_obs q (t.z_obs q)
        z_obs := Function.update t.z_obs q (t.x_obs q) } := by
  unfold Tableau.prepend_H
  rw [inplace_scatter_prepend_single]
  simp [gate_tableau, Tableau.identity, PauliString.single_X, PauliString.single_Z,
    PauliString.apply_H, Tableau.eval_local, xor_sign_false]

theorem prepend_SQRT_Z_eq (t : Tableau) (q : Nat) :
    t.prepend_SQRT_Z q =
      { num_qubits := t.num_qubits
        x_obs := Function.update t.x_obs q
          (PauliString.mul_pow t.num_qubits (-1) (t.x_obs q) (t.z_obs q))
        z_obs := t.z_obs } := by
  unfold Tableau.prepend_SQRT_Z
  rw [inplace_scatter_prepend_single]
  simp [gate_tableau, Tableau.identity, PauliString.single_X, PauliString.single_Z,
    PauliString.apply_SQRT_Z, Tableau.eval_local, xor_sign_false]

theorem prepend_SQRT_Z_DAG_eq (t : Tableau) (q : Nat) :
    t.prepend_SQRT_Z_DAG q =
      { num_qubits := t.num_qubits
        x_obs := Function.update t.x_obs q
          ((PauliString.mul_pow t.num_qubits (-1) (t.x_obs q) (t.z_obs q)).xor_sign true)
        z_obs := t.z_obs } := by
  unfold Tableau.prepend_SQRT_Z_DAG
  rw [inplace_scatter_prepend_single]
  simp [gate_tableau, Tableau.identity, PauliString.single_X, PauliString.single_Z,
    PauliString.apply_SQRT_Z_DAG, Tableau.eval_local, xor_sign_false]


/-! ### Flipping and correlating readouts -/

theorem X_is_deterministic (s : ChpSim) (q : Nat) :
    (s.X q).is_deterministic q = s.is_deterministic q := by
  unfold ChpSim.is_deterministic ChpSim.X
  simp only [prepend_X_eq, Tableau.z_obs_ptr, Function.update_same, PauliString.xor_sign]

theorem X_z_sign (s : ChpSim) (q : Nat) :
    (s.X q).inv_state.z_sign q = !s.inv_state.z_sign q := by
  unfold ChpSim.X Tableau.z_sign
  simp only [prepend_X_eq, Function.update_same, PauliString.xor_sign]
  simp

/-- C9. An `X` gate flips a deterministic readout: when `q` is deterministic, it still is
after `X(q)`, and `measure(q, bias)` then returns the negation of what it returned before,
whatever the two biases. -/
theorem X_flips_deterministic_readout (s : ChpSim) (q : Nat) (bias bias' : ℚ)
    (hd : s.is_deterministic q = true) :
    (s.X q).is_deterministic q = true ∧
      ((s.X q).measure q bias).1 = !(s.measure q bias').1 := by
  have hd' : (s.X q).is_deterministic q = true := by rw [X_is_deterministic]; exact hd
  refine ⟨hd', ?_⟩
  rw [measure_of_deterministic _ q bias hd', measure_of_deterministic s q bias' hd]
  exact X_z_sign s q

theorem X_flips_deterministic_readout_witness :
    ((ChpSim.new 1 example_rng).X 0).is_deterministic 0 = true ∧
      (((ChpSim.new 1 example_rng).X 0).measure 0 (1 / 2)).1
        = !((ChpSim.new 1 example_rng).measure 0 (1 / 2)).1 :=
  X_flips_deterministic_readout (ChpSim.new 1 example_rng) 0 (1 / 2) (1 / 2) (by decide)

theorem measure_while_transposed_eq_collapse_view (rng : Rng) (tt : BlockTransposedTableau)
    (target : Nat) (bias : ℚ) (pivot : Nat) (hp : find_pivot tt target = some pivot) :
    measure_while_transposed rng tt target bias =
      ((rng.bernoulli bias).1, collapse_view tt target pivot (rng.bernoulli bias).1,
        (rng.bernoulli bias).2) := by
  simp only [measure_while_transposed, hp, collapse_view]

theorem bell_find_pivot :
    find_pivot (BlockTransposedTableau.create bell_tableau) 0 = some 0 := by
  decide

theorem bell_collapse (c : Bool) :
    (∀ j, j < 256 →
      ((collapse_view (BlockTransposedTableau.create bell_tableau) 0 0 c).tableau.z_obs 1).x j
        = false) ∧
    ((collapse_view (BlockTransposedTableau.create bell_tableau) 0 0 c).tableau.z_obs 1).sign
      = c ∧
    (collapse_view (BlockTransposedTableau.create bell_tableau) 0 0 c).tableau.num_qubits
      = 2 := by
  cases c <;> decide

theorem bell_not_deterministic (seed : Rng) :
    (((ChpSim.new 2 seed).H 0).CX 0 1).is_deterministic 0 = false := by
  rw [← Bool.not_eq_true, is_deterministic_iff]
  intro h
  have h0 := h 0 (show 0 < ceil256 2 by decide)
  have h1 : (bell_tableau.z_obs 0).x 0 = true := by decide
  exact absurd (h1.symm.trans h0) (by decide)

theorem bell_first_measure (seed : Rng) (b1 : ℚ) :
    (((ChpSim.new 2 seed).H 0).CX 0 1).measure 0 b1 =
      ((seed.bernoulli b1).1,
       { inv_state := (collapse_view (BlockTransposedTableau.create bell_tableau) 0 0
            (seed.bernoulli b1).1).release
         rng := (seed.bernoulli b1).2 }) := by
  rw [measure_of_not_deterministic _ 0 b1 (bell_not_deterministic seed)]
  have h := measure_while_transposed_eq_collapse_view seed
    (BlockTransposedTableau.create bell_tableau) 0 b1 0 bell_find_pivot
  exact congrArg (fun r : Bool × BlockTransposedTableau × Rng =>
    (r.1, ({ inv_state := r.2.1.release, rng := r.2.2 } : ChpSim))) h

/-- C10. Bell-pair correlation: on a fresh 2-qubit simulator after `H(0); CX(0,1)`, for all
biases `b1`, `b2` and every generator, `measure(0, b1)` is random and returns the coin it
draws, and the following `measure(1, b2)` is deterministic and returns the same coin; so
bias 0 gives (0, 0) and biases (1, 0) give (1, 1). -/
theorem bell_pair_correlation (seed : Rng) (b1 b2 : ℚ) :
    (((ChpSim.new 2 seed).H 0).CX 0 1).is_deterministic 0 = false ∧
    ((((ChpSim.new 2 seed).H 0).CX 0 1).measure 0 b1).1 = (seed.bernoulli b1).1 ∧
    ((((ChpSim.new 2 seed).H 0).CX 0 1).measure 0 b1).2.is_deterministic 1 = true ∧
    (((((ChpSim.new 2 seed).H 0).CX 0 1).measure 0 b1).2.measure 1 b2).1
      = (seed.bernoulli b1).1 ∧
    (((((ChpSim.new 2 seed).H 0).CX 0 1).measure 0 0).1 = false ∧
      (((((ChpSim.new 2 seed).H 0).CX 0 1).measure 0 0).2.measure 1 0).1 = false) ∧
    (((((ChpSim.new 2 seed).H 0).CX 0 1).measure 0 1).1 = true ∧
      (((((ChpSim.new 2 seed).H 0).CX 0 1).measure 0 1).2.measure 1 0).1 = true) := by
  have key : ∀ b b' : ℚ,
      ((((ChpSim.new 2 seed).H 0).CX 0 1).measure 0 b).1 = (seed.bernoulli b).1 ∧
      ((((ChpSim.new 2 seed).H 0).CX 0 1).measure 0 b).2.is_deterministic 1 = true ∧
      (((((ChpSim.new 2 seed).H 0).CX 0 1).measure 0 b).2.measure 1 b').1
        = (seed.bernoulli b).1 := by
    intro b b'
    rw [bell_first_measure seed b]
    obtain ⟨hx, hs, hn⟩ := bell_collapse (seed.bernoulli b).1
    have hd : ({ inv_state := (collapse_view (BlockTransposedTableau.create bell_tableau) 0 0
            (seed.bernoulli b).1).release
                 rng := (seed.bernoulli b).2 } : ChpSim).is_deterministic 1 = true := by
      rw [is_deterministic_iff]
      intro j hj
      have hj' : j < ceil256 (collapse_view (BlockTransposedTableau.create bell_tableau) 0 0
          (seed.bernoulli b).1).tableau.num_qubits := hj
      rw [hn] at hj'
      exact hx j hj'
    refine ⟨rfl, hd, ?_⟩
    rw [measure_of_deterministic _ 1 b' hd]
    exact hs
  refine ⟨bell_not_deterministic seed, (key b1 b2).1, (key b1 b2).2.1, (key b1 b2).2.2, ?_, ?_⟩
  · exact ⟨(key 0 0).1.trans (bernoulli_zero seed), (key 0 0).2.2.trans (bernoulli_zero seed)⟩
  · exact ⟨(key 1 0).1.trans (bernoulli_one seed), (key 1 0).2.2.trans (bernoulli_one seed)⟩


/-! ### Named-gate dispatch and the inverse-tableau convention -/

theorem SQRT_Z_DAG_ne_SQRT_Z (s : ChpSim) (q : Nat) : s.SQRT_Z_DAG q ≠ s.SQRT_Z q := by
  intro h
  have h1 : ((s.SQRT_Z_DAG q).inv_state.x_obs q).sign
      = ((s.SQRT_Z q).inv_state.x_obs q).sign := by rw [h]
  simp only [ChpSim.SQRT_Z_DAG, ChpSim.SQRT_Z, prepend_SQRT_Z_eq, prepend_SQRT_Z_DAG_eq,
    Function.update_same, PauliString.xor_sign] at h1
  simp at h1

/-- C6. What the code does with `op("S", [q])`: with the tableau of `SQRT_Z` stored under the
name `S`, `op` prepends that gate itself, so it leaves the state of the method
`SQRT_Z_DAG(q)`, which is never the state of the method `SQRT_Z(q)`. -/
theorem op_S_is_SQRT_Z_DAG (GATE_TABLEAUS : String → Option Tableau) (s : ChpSim) (q : Nat)
    (hS : GATE_TABLEAUS "S" = some (gate_tableau 1 (fun p => p.apply_SQRT_Z 0))) :
    ChpSim.op GATE_TABLEAUS s "S" [q] = Except.ok (s.SQRT_Z_DAG q) ∧
      s.SQRT_Z_DAG q ≠ s.SQRT_Z q := by
  refine ⟨?_, SQRT_Z_DAG_ne_SQRT_Z s q⟩
  unfold ChpSim.op
  rw [hS]
  rfl

theorem op_S_is_SQRT_Z_DAG_witness :
    ChpSim.op table_4C_gates (ChpSim.new 1 example_rng) "S" [0]
        = Except.ok ((ChpSim.new 1 example_rng).SQRT_Z_DAG 0) ∧
      (ChpSim.new 1 example_rng).SQRT_Z_DAG 0 ≠ (ChpSim.new 1 example_rng).SQRT_Z 0 :=
  op_S_is_SQRT_Z_DAG table_4C_gates (ChpSim.new 1 example_rng) 0 (by simp [table_4C_gates])

/-- The rows `H_XY` and `H_YZ` of the table, taken as written, are not involutions: with the
primitives modelled from them `H_XY(0); H_XY(0)` on a fresh 1-qubit simulator leaves
`X_obs[0]` with a negative sign and `H_YZ(0); H_YZ(0)` leaves `Z_obs[0]` with one, where the
fresh tableau has both signs positive.  This says nothing of `prepend_H_XY` and
`prepend_H_YZ` themselves, which are not part of the sources at hand. -/
theorem H_XY_twice_flips_sign :
    ((((ChpSim.new 1 example_rng).H_XY 0).H_XY 0).inv_state.x_obs 0).sign = true ∧
    ((((ChpSim.new 1 example_rng).H_YZ 0).H_YZ 0).inv_state.z_obs 0).sign = true ∧
    ((ChpSim.new 1 example_rng).inv_state.x_obs 0).sign = false ∧
    ((ChpSim.new 1 example_rng).inv_state.z_obs 0).sign = false := by
  decide

/-! ### Conjugation laws -/

theorem H_X_H_eq_Z (s : ChpSim) (q : Nat) : ((s.H q).X q).H q = s.Z q := by
  simp only [ChpSim.H, ChpSim.X, ChpSim.Z, prepend_H_eq, prepend_X_eq, prepend_Z_eq,
    Function.update_same, Function.update_idem, Function.update_eq_self]

theorem H_Z_H_eq_X (s : ChpSim) (q : Nat) : ((s.H q).Z q).H q = s.X q := by
  simp only [ChpSim.H, ChpSim.X, ChpSim.Z, prepend_H_eq, prepend_X_eq, prepend_Z_eq,
    Function.update_same, Function.update_idem, Function.update_eq_self]

theorem phase_qubit_mul_right (x1 z1 x2 z2 : Bool) :
    phase_qubit (x1 ^^ x2) (z1 ^^ z2) x2 z2 = - phase_qubit x1 z1 x2 z2 := by
  cases x1 <;> cases z1 <;> cases x2 <;> cases z2 <;> rfl

theorem phase_count_congr (n : Nat) (p p' q q' : PauliString)
    (hpx : p.x = p'.x) (hpz : p.z = p'.z) (hqx : q.x = q'.x) (hqz : q.z = q'.z) :
    phase_count n p q = phase_count n p' q' := by
  induction n with
  | zero => rfl
  | succ k ih => simp only [phase_count, ih, hpx, hpz, hqx, hqz]

theorem phase_count_mul_right (n : Nat) (k : Int) (p q : PauliString) :
    phase_count n (PauliString.mul_pow n k p q) q = - phase_count n p q := by
  have h : ∀ m : Nat, phase_count m (PauliString.mul_pow n k p q) q = - phase_count m p q := by
    intro m
    induction m with
    | zero => rfl
    | succ j ih =>
      simp only [phase_count, ih]
      simp only [PauliString.mul_pow, phase_qubit_mul_right]
      omega
  exact h n

theorem mul_pow_conj (n : Nat) (p q : PauliString) (hodd : phase_count n p q % 2 = 1) :
    PauliString.mul_pow n (-1) ((PauliString.mul_pow n (-1) p q).xor_sign true)
      (q.xor_sign true) = p.xor_sign true := by
  have hc : phase_count n ((PauliString.mul_pow n (-1) p q).xor_sign true) (q.xor_sign true)
      = - phase_count n p q := by
    rw [← phase_count_mul_right n (-1)]
    exact phase_count_congr _ _ _ _ _ rfl rfl rfl rfl
  have hAB : ((phase_count n p q + -1) / 2 % 2 = 1) ↔
      ¬ ((-phase_count n p q + -1) / 2 % 2 = 1) := by omega
  obtain ⟨x, z, sign⟩ := p
  obtain ⟨x', z', sign'⟩ := q
  simp only [PauliString.mul_pow, PauliString.xor_sign] at hc ⊢
  congr 1
  · funext j
    cases x j <;> cases x' j <;> rfl
  · funext j
    cases z j <;> cases z' j <;> rfl
  · have hB' := congrArg (fun c : Int => decide ((c + -1) / 2 % 2 = 1)) hc
    simp only at hB'
    rw [hB']
    by_cases hB : (-phase_count n { x := x, z := z, sign := sign }
        { x := x', z := z', sign := sign' } + -1) / 2 % 2 = 1
    · have hA := (not_congr hAB).mpr (not_not.mpr hB)
      cases sign <;> cases sign' <;> simp [hA, hB]
    · have hA := hAB.mpr hB
      cases sign <;> cases sign' <;> simp [hA, hB]

theorem SQRT_Z_X_SQRT_Z_DAG_eq_Y (s : ChpSim) (q : Nat)
    (hodd : phase_count s.inv_state.num_qubits (s.inv_state.x_obs q) (s.inv_state.z_obs q) % 2
      = 1) :
    ((s.SQRT_Z q).X q).SQRT_Z_DAG q = s.Y q := by
  simp only [ChpSim.SQRT_Z, ChpSim.SQRT_Z_DAG, ChpSim.X, ChpSim.Y, prepend_SQRT_Z_eq,
    prepend_SQRT_Z_DAG_eq, prepend_X_eq, prepend_Y_eq, Function.update_same,
    Function.update_idem]
  rw [mul_pow_conj _ _ _ hodd]


/-! ### The commutation invariant -/

theorem anticommutes_congr (n : Nat) (p p' q q' : PauliString)
    (hp : ∀ j, j < n → p.x j = p'.x j ∧ p.z j = p'.z j)
    (hq : ∀ j, j < n → q.x j = q'.x j ∧ q.z j = q'.z j) :
    anticommutes n p q = anticommutes n p' q' := by
  induction n with
  | zero => rfl
  | succ k ih =>
    simp only [anticommutes]
    rw [ih (fun j hj => hp j (Nat.lt_succ_of_lt hj)) (fun j hj => hq j (Nat.lt_succ_of_lt hj)),
      (hp k (Nat.lt_succ_self k)).1, (hp k (Nat.lt_succ_self k)).2,
      (hq k (Nat.lt_succ_self k)).1, (hq k (Nat.lt_succ_self k)).2]

theorem anticommutes_symm (n : Nat) (p q : PauliString) :
    anticommutes n p q = anticommutes n q p := by
  induction n with
  | zero => rfl
  | succ k ih =>
    simp only [anticommutes, ih]
    cases p.x k <;> cases p.z k <;> cases q.x k <;> cases q.z k <;> rfl

theorem anticommutes_self (n : Nat) (p : PauliString) : anticommutes n p p = false := by
  induction n with
  | zero => rfl
  | succ k ih =>
    simp only [anticommutes, ih]
    cases p.x k <;> cases p.z k <;> rfl

theorem anticommutes_zero_left (n : Nat) (q : PauliString) :
    anticommutes n PauliString.zero q = false := by
  induction n with
  | zero => rfl
  | succ k ih =>
    simp only [anticommutes, ih]
    simp [PauliString.zero]

theorem anticommutes_mul_left (n m : Nat) (k : Int) (a b r : PauliString) :
    anticommutes n (PauliString.mul_pow m k a b) r
      = (anticommutes n a r ^^ anticommutes n b r) := by
  induction n with
  | zero => rfl
  | succ j ih =>
    simp only [anticommutes, ih]
    simp only [PauliString.mul_pow]
    cases anticommutes j a r <;> cases anticommutes j b r <;>
      cases a.x j <;> cases a.z j <;> cases b.x j <;> cases b.z j <;>
      cases r.x j <;> cases r.z j <;> rfl

theorem anticommutes_mul_right (n m : Nat) (k : Int) (a b r : PauliString) :
    anticommutes n r (PauliString.mul_pow m k a b)
      = (anticommutes n r a ^^ anticommutes n r b) := by
  rw [anticommutes_symm, anticommutes_mul_left, anticommutes_symm n a, anticommutes_symm n b]

theorem anticommutes_xor_sign_left (n : Nat) (a r : PauliString) (s : Bool) :
    anticommutes n (a.xor_sign s) r = anticommutes n a r :=
  anticommutes_congr n _ _ _ _ (fun _ _ => ⟨rfl, rfl⟩) (fun _ _ => ⟨rfl, rfl⟩)

theorem anticommutes_xor_sign_right (n : Nat) (a r : PauliString) (s : Bool) :
    anticommutes n r (a.xor_sign s) = anticommutes n r a :=
  anticommutes_congr n _ _ _ _ (fun _ _ => ⟨rfl, rfl⟩) (fun _ _ => ⟨rfl, rfl⟩)

theorem anticommutes_eval_local_left (t : Tableau) (n q : Nat) (a b : Bool) (r : PauliString) :
    anticommutes n (t.eval_local q a b) r
      = ((a && anticommutes n (t.x_obs q) r) ^^ (b && anticommutes n (t.z_obs q) r)) := by
  cases a <;> cases b <;>
    simp [Tableau.eval_local, anticommutes_zero_left, anticommutes_mul_left]

theorem anticommutes_eval_local_right (t : Tableau) (n q : Nat) (a b : Bool)
    (r : PauliString) :
    anticommutes n r (t.eval_local q a b)
      = ((a && anticommutes n r (t.x_obs q)) ^^ (b && anticommutes n r (t.z_obs q))) := by
  rw [anticommutes_symm, anticommutes_eval_local_left, anticommutes_symm n (t.x_obs q),
    anticommutes_symm n (t.z_obs q)]

theorem phase_count_odd_iff (n : Nat) (p q : PauliString) :
    phase_count n p q % 2 = 1 ↔ anticommutes n p q = true := by
  induction n with
  | zero => simp [phase_count, anticommutes]
  | succ k ih =>
    simp only [phase_count, anticommutes]
    have hq : phase_qubit (p.x k) (p.z k) (q.x k) (q.z k) % 2
        = if ((p.x k && q.z k) ^^ (p.z k && q.x k)) = true then 1 else 0 := by
      cases p.x k <;> cases p.z k <;> cases q.x k <;> cases q.z k <;> rfl
    cases hb : ((p.x k && q.z k) ^^ (p.z k && q.x k)) <;>
      cases ha : anticommutes k p q <;> simp [hb, ha] at hq ih ⊢ <;> omega

/-- The identity tableau satisfies the commutation invariant. -/
theorem anticommutes_single_X_Z (n p q : Nat) (hp : p < n) :
    anticommutes n (PauliString.single_X p) (PauliString.single_Z q) = decide (p = q) := by
  induction n with
  | zero => omega
  | succ k ih =>
    simp only [anticommutes]
    by_cases hpk : p = k
    · subst hpk
      have h0 : anticommutes p (PauliString.single_X p) (PauliString.single_Z q) = false := by
        rw [← anticommutes_zero_left p (PauliString.single_Z q)]
        apply anticommutes_congr
        · intro j hj
          simp [PauliString.single_X, PauliString.zero]
          omega
        · intro j _; exact ⟨rfl, rfl⟩
      rw [h0]
      by_cases hpq : p = q <;> simp [PauliString.single_X, PauliString.single_Z, hpq]
    · rw [ih (by omega)]
      have hkp : ¬ k = p := fun h => hpk h.symm
      simp [PauliString.single_X, PauliString.single_Z, hkp]

theorem anticommutes_single_X_X (n p q : Nat) :
    anticommutes n (PauliString.single_X p) (PauliString.single_X q) = false := by
  induction n with
  | zero => rfl
  | succ k ih =>
    rw [anticommutes, ih]
    simp [PauliString.single_X]

theorem anticommutes_single_Z_Z (n p q : Nat) :
    anticommutes n (PauliString.single_Z p) (PauliString.single_Z q) = false := by
  induction n with
  | zero => rfl
  | succ k ih =>
    rw [anticommutes, ih]
    simp [PauliString.single_Z]

theorem commutation_invariant_identity (n : Nat) :
    (Tableau.identity n).commutation_invariant := by
  intro p q hp hq
  have hp' : p < n := hp
  have hq' : q < n := hq
  simp only [Tableau.identity, hp', hq', if_true]
  exact ⟨anticommutes_single_X_Z n p q hp', anticommutes_single_X_X n p q,
    anticommutes_single_Z_Z n p q⟩

theorem anticommutes_update_one (n q : Nat) (a a' b b' : PauliString)
    (ha : ∀ j, j ≠ q → a'.x j = a.x j ∧ a'.z j = a.z j)
    (hb : ∀ j, j ≠ q → b'.x j = b.x j ∧ b'.z j = b.z j)
    (hloc : ((a'.x q && b'.z q) ^^ (a'.z q && b'.x q)) = ((a.x q && b.z q) ^^ (a.z q && b.x q))) :
    anticommutes n a' b' = anticommutes n a b := by
  induction n with
  | zero => rfl
  | succ k ih =>
    simp only [anticommutes, ih]
    by_cases hk : k = q
    · rw [hk, hloc]
    · rw [(ha k hk).1, (ha k hk).2, (hb k hk).1, (hb k hk).2]

theorem anticommutes_update_two (n c t : Nat) (a a' b b' : PauliString)
    (hct : c ≠ t) (hc : c < n) (ht : t < n)
    (ha : ∀ j, j ≠ c → j ≠ t → a'.x j = a.x j ∧ a'.z j = a.z j)
    (hb : ∀ j, j ≠ c → j ≠ t → b'.x j = b.x j ∧ b'.z j = b.z j)
    (hloc : (((a'.x c && b'.z c) ^^ (a'.z c && b'.x c)) ^^
              ((a'.x t && b'.z t) ^^ (a'.z t && b'.x t)))
        = (((a.x c && b.z c) ^^ (a.z c && b.x c)) ^^
              ((a.x t && b.z t) ^^ (a.z t && b.x t)))) :
    anticommutes n a' b' = anticommutes n a b := by
  have key : ∀ m : Nat,
      (anticommutes m a' b' ^^
        ((if c < m then ((a'.x c && b'.z c) ^^ (a'.z c && b'.x c)) else false) ^^
         (if t < m then ((a'.x t && b'.z t) ^^ (a'.z t && b'.x t)) else false)))
      = (anticommutes m a b ^^
        ((if c < m then ((a.x c && b.z c) ^^ (a.z c && b.x c)) else false) ^^
         (if t < m then ((a.x t && b.z t) ^^ (a.z t && b.x t)) else false))) := by
    intro m
    induction m with
    | zero => simp [anticommutes]
    | succ k ih =>
      simp only [anticommutes]
      by_cases hkc : k = c
      · subst hkc
        have h1 : ¬ t < k + 1 ↔ ¬ t < k := by omega
        have h2 : ¬ k < k := Nat.lt_irrefl k
        have h3 : k < k + 1 := Nat.lt_succ_self k
        simp only [h2, h3, if_true, if_false] at ih ⊢
        by_cases htk : t < k
        · have htk' : t < k + 1 := by omega
          simp only [htk, htk', if_true] at ih ⊢
          revert ih
          generalize anticommutes k a' b' = u
          generalize anticommutes k a b = v
          cases u <;> cases v <;>
            cases (a'.x k && b'.z k ^^ a'.z k && b'.x k) <;>
            cases (a.x k && b.z k ^^ a.z k && b.x k) <;>
            cases (a'.x t && b'.z t ^^ a'.z t && b'.x t) <;>
            cases (a.x t && b.z t ^^ a.z t && b.x t) <;> simp
        · have htk' : ¬ t < k + 1 := by omega
          simp only [htk, htk', if_false] at ih ⊢
          revert ih
          generalize anticommutes k a' b' = u
          generalize anticommutes k a b = v
          cases u <;> cases v <;>
            cases (a'.x k && b'.z k ^^ a'.z k && b'.x k) <;>
            cases (a.x k && b.z k ^^ a.z k && b.x k) <;> simp
      · by_cases hkt : k = t
        · subst hkt
          have h2 : ¬ k < k := Nat.lt_irrefl k
          have h3 : k < k + 1 := Nat.lt_succ_self k
          simp only [h2, h3, if_true, if_false] at ih ⊢
          by_cases hck : c < k
          · have hck' : c < k + 1 := by omega
            simp only [hck, hck', if_true] at ih ⊢
            revert ih
            generalize anticommutes k a' b' = u
            generalize anticommutes k a b = v
            cases u <;> cases v <;>
              cases (a'.x k && b'.z k ^^ a'.z k && b'.x k) <;>
              cases (a.x k && b.z k ^^ a.z k && b.x k) <;>
              cases (a'.x c && b'.z c ^^ a'.z c && b'.x c) <;>
              cases (a.x c && b.z c ^^ a.z c && b.x c) <;> simp
          · have hck' : ¬ c < k + 1 := by omega
            simp only [hck, hck', if_false] at ih ⊢
            revert ih
            generalize anticommutes k a' b' = u
            generalize anticommutes k a b = v
            cases u <;> cases v <;>
              cases (a'.x k && b'.z k ^^ a'.z k && b'.x k) <;>
              cases (a.x k && b.z k ^^ a.z k && b.x k) <;> simp
        · have e1 : (c < k + 1) = (c < k) := by
            apply propext; constructor <;> intro h <;> omega
          have e2 : (t < k + 1) = (t < k) := by
            apply propext; constructor <;> intro h <;> omega
          rw [(ha k hkc hkt).1, (ha k hkc hkt).2, (hb k hkc hkt).1, (hb k hkc hkt).2]
          simp only [e1, e2]
          revert ih
          generalize (if c < k then (a'.x c && b'.z c ^^ a'.z c && b'.x c) else false) = w1
          generalize (if t < k then (a'.x t && b'.z t ^^ a'.z t && b'.x t) else false) = w2
          generalize (if c < k then (a.x c && b.z c ^^ a.z c && b.x c) else false) = w3
          generalize (if t < k then (a.x t && b.z t ^^ a.z t && b.x t) else false) = w4
          generalize anticommutes k a' b' = u
          generalize anticommutes k a b = v
          cases u <;> cases v <;> cases w1 <;> cases w2 <;> cases w3 <;> cases w4 <;>
            cases (a.x k && b.z k ^^ a.z k && b.x k) <;> simp
  have h := key n
  simp only [hc, ht, if_true] at h
  revert h hloc
  generalize anticommutes n a' b' = u
  generalize anticommutes n a b = v
  cases u <;> cases v <;>
    cases (a'.x c && b'.z c ^^ a'.z c && b'.x c) <;>
    cases (a.x c && b.z c ^^ a.z c && b.x c) <;>
    cases (a'.x t && b'.z t ^^ a'.z t && b'.x t) <;>
    cases (a.x t && b.z t ^^ a.z t && b.x t) <;> simp

theorem anticommutes_apply_H (n q : Nat) (a b : PauliString) :
    anticommutes n (a.apply_H q) (b.apply_H q) = anticommutes n a b := by
  apply anticommutes_update_one n q
  · intro j hj
    simp [PauliString.apply_H, Function.update_noteq hj]
  · intro j hj
    simp [PauliString.apply_H, Function.update_noteq hj]
  · simp only [PauliString.apply_H, Function.update_same]
    cases a.x q <;> cases a.z q <;> cases b.x q <;> cases b.z q <;> rfl

theorem anticommutes_apply_H_YZ (n q : Nat) (a b : PauliString) :
    anticommutes n (a.apply_H_YZ q) (b.apply_H_YZ q) = anticommutes n a b := by
  apply anticommutes_update_one n q
  · intro j hj
    simp [PauliString.apply_H_YZ, Function.update_noteq hj]
  · intro j hj
    simp [PauliString.apply_H_YZ, Function.update_noteq hj]
  · simp only [PauliString.apply_H_YZ, Function.update_same]
    cases a.x q <;> cases a.z q <;> cases b.x q <;> cases b.z q <;> rfl

theorem anticommutes_apply_X (n q : Nat) (a b : PauliString) :
    anticommutes n (a.apply_X q) (b.apply_X q) = anticommutes n a b :=
  anticommutes_congr n _ _ _ _ (fun _ _ => ⟨rfl, rfl⟩) (fun _ _ => ⟨rfl, rfl⟩)

theorem anticommutes_apply_CX (n c t : Nat) (hct : c ≠ t) (hc : c < n) (ht : t < n)
    (a b : PauliString) :
    anticommutes n (a.apply_CX c t) (b.apply_CX c t) = anticommutes n a b := by
  apply anticommutes_update_two n c t _ _ _ _ hct hc ht
  · intro j hjc hjt
    simp [PauliString.apply_CX, Function.update_noteq hjc, Function.update_noteq hjt]
  · intro j hjc hjt
    simp [PauliString.apply_CX, Function.update_noteq hjc, Function.update_noteq hjt]
  · simp only [PauliString.apply_CX, Function.update_same, Function.update_noteq hct,
      Function.update_noteq (Ne.symm hct)]
    cases a.x c <;> cases a.z c <;> cases b.x c <;> cases b.z c <;>
      cases a.x t <;> cases a.z t <;> cases b.x t <;> cases b.z t <;> rfl

theorem commutation_invariant_append_row_op (tt : BlockTransposedTableau)
    (f : PauliString → PauliString) (h : tt.tableau.commutation_invariant)
    (hf : ∀ a b : PauliString, anticommutes tt.tableau.num_qubits (f a) (f b)
      = anticommutes tt.tableau.num_qubits a b) :
    (tt.append_row_op f).tableau.commutation_invariant := by
  intro p q hp hq
  simp only [BlockTransposedTableau.append_row_op, hf]
  exact h p q hp hq

theorem commutation_invariant_cancel_fold (target pivot n : Nat) (hp : pivot < n)
    (l : List Nat) :
    ∀ tt : BlockTransposedTableau, (∀ q ∈ l, q < n ∧ q ≠ pivot) →
      tt.tableau.num_qubits = n → tt.tableau.commutation_invariant →
      (l.foldl (fun tt q => if tt.z_obs_x_bit target q then tt.append_CX pivot q else tt)
          tt).tableau.commutation_invariant := by
  induction l with
  | nil => intro tt _ _ h; exact h
  | cons a l ih =>
    intro tt hl hn h
    rw [List.foldl_cons]
    have ha := hl a (List.mem_cons_self a l)
    have hl' : ∀ q ∈ l, q < n ∧ q ≠ pivot := fun q hq => hl q (List.mem_cons_of_mem a hq)
    split
    · refine ih (tt.append_CX pivot a) hl' hn ?_
      apply commutation_invariant_append_row_op tt _ h
      intro x y
      rw [hn]
      exact anticommutes_apply_CX n pivot a (Ne.symm ha.2) hp ha.1 x y
    · exact ih tt hl' hn h

theorem commutation_invariant_cancel_loop (tt : BlockTransposedTableau) (target pivot : Nat)
    (hp : pivot < tt.tableau.num_qubits) (h : tt.tableau.commutation_invariant) :
    (cancel_loop tt target pivot).tableau.commutation_invariant := by
  apply commutation_invariant_cancel_fold target pivot tt.tableau.num_qubits hp _ tt _ rfl h
  intro q hq
  rw [List.mem_range'_1] at hq
  omega

theorem commutation_invariant_measure_while_transposed (rng : Rng)
    (tt : BlockTransposedTableau) (target : Nat) (bias : ℚ)
    (h : tt.tableau.commutation_invariant) :
    (measure_while_transposed rng tt target bias).2.1.tableau.commutation_invariant := by
  unfold measure_while_transposed
  cases hf : find_pivot tt target with
  | none => exact h
  | some pivot =>
    have hp : pivot < tt.tableau.num_qubits := (find_pivot_some tt target pivot hf).1
    have h1 := commutation_invariant_cancel_loop tt target pivot hp h
    have h2 : (if (cancel_loop tt target pivot).z_obs_z_bit target pivot
        then (cancel_loop tt target pivot).append_H_YZ pivot
        else (cancel_loop tt target pivot).append_H pivot).tableau.commutation_invariant := by
      split
      · exact commutation_invariant_append_row_op _ _ h1
          (fun a b => anticommutes_apply_H_YZ _ pivot a b)
      · exact commutation_invariant_append_row_op _ _ h1
          (fun a b => anticommutes_apply_H _ pivot a b)
    have key : ∀ t2 : BlockTransposedTableau, t2.tableau.commutation_invariant →
        (if t2.z_sign target != (rng.bernoulli bias).1 then t2.append_X pivot
          else t2).tableau.commutation_invariant := by
      intro t2 ht2
      split
      · exact commutation_invariant_append_row_op _ _ ht2
          (fun a b => anticommutes_apply_X _ pivot a b)
      · exact ht2
    exact key _ h2

theorem commutation_invariant_measure (s : ChpSim) (target : Nat) (bias : ℚ)
    (h : s.inv_state.commutation_invariant) :
    (s.measure target bias).2.inv_state.commutation_invariant := by
  unfold ChpSim.measure
  split
  · exact h
  · exact commutation_invariant_measure_while_transposed _ _ _ _ h

theorem commutation_invariant_second_pass (targets : List Nat) (bias : ℚ)
    (finished : List Bool) (ks : List Nat) :
    ∀ init : List Bool × BlockTransposedTableau × Rng,
      init.2.1.tableau.commutation_invariant →
      (measure_many_second_pass targets bias finished ks
        init).2.1.tableau.commutation_invariant := by
  induction ks with
  | nil => intro init hp; exact hp
  | cons k ks ih =>
    intro init hp
    unfold measure_many_second_pass
    rw [List.foldl_cons]
    split
    · exact ih _ (commutation_invariant_measure_while_transposed _ _ _ _ hp)
    · exact ih init hp

theorem commutation_invariant_measure_many (s : ChpSim) (targets : List Nat) (bias : ℚ)
    (h : s.inv_state.commutation_invariant) :
    (s.measure_many targets bias).2.inv_state.commutation_invariant := by
  unfold ChpSim.measure_many
  simp only
  split
  · exact commutation_invariant_second_pass targets bias _ _ _ h
  · exact h

theorem commutation_invariant_scatter_single (t gate : Tableau) (q : Nat)
    (hq : q < t.num_qubits) (h : t.commutation_invariant)
    (hg : (((gate.x_obs 0).x 0 && (gate.z_obs 0).z 0) ^^
      ((gate.x_obs 0).z 0 && (gate.z_obs 0).x 0)) = true) :
    (t.inplace_scatter_prepend gate [q]).commutation_invariant := by
  rw [inplace_scatter_prepend_single]
  revert hg
  generalize (gate.x_obs 0).x 0 = ax
  generalize (gate.x_obs 0).z 0 = bx
  generalize (gate.z_obs 0).x 0 = az
  generalize (gate.z_obs 0).z 0 = bz
  generalize (gate.x_obs 0).sign = sx
  generalize (gate.z_obs 0).sign = sz
  intro hg p q' hp hq'
  have hp' : p < t.num_qubits := hp
  have hq'' : q' < t.num_qubits := hq'
  obtain ⟨a1, a2, a3⟩ := h q q hq hq
  obtain ⟨b1, b2, b3⟩ := h p q hp' hq
  obtain ⟨c1, c2, c3⟩ := h q q' hq hq''
  obtain ⟨d1, d2, d3⟩ := h p q' hp' hq''
  have e1 := anticommutes_symm t.num_qubits (t.z_obs q) (t.x_obs q)
  have e2 := anticommutes_symm t.num_qubits (t.z_obs q) (t.x_obs q')
  have e3 := anticommutes_symm t.num_qubits (t.z_obs q) (t.x_obs p)
  have e4 := anticommutes_symm t.num_qubits (t.z_obs p) (t.x_obs q)
  have e5 := anticommutes_symm t.num_qubits (t.z_obs q') (t.x_obs q)
  obtain ⟨f1, f2, f3⟩ := h q' q hq'' hq
  obtain ⟨g1, g2, g3⟩ := h q p hq hp'
  simp only [decide_True] at a1
  by_cases hpq : p = q
  · subst hpq
    by_cases hqq : q' = p
    · subst hqq
      simp only [Function.update_same, anticommutes_xor_sign_left, anticommutes_xor_sign_right,
        anticommutes_eval_local_left, anticommutes_eval_local_right, anticommutes_self,
        a1, e1, decide_True]
      revert hg
      cases ax <;> cases bx <;> cases az <;> cases bz <;> simp
    · have hqq' : ¬ p = q' := fun h => hqq h.symm
      simp only [Function.update_same, Function.update_noteq hqq,
        anticommutes_xor_sign_left, anticommutes_xor_sign_right,
        anticommutes_eval_local_left, anticommutes_eval_local_right, anticommutes_self,
        c1, c2, c3, e2, f1, hqq, hqq']
      simp
  · by_cases hqq : q' = q
    · subst hqq
      have hqp : ¬ q' = p := fun h => hpq h.symm
      simp only [Function.update_same, Function.update_noteq hpq,
        anticommutes_xor_sign_left, anticommutes_xor_sign_right,
        anticommutes_eval_local_left, anticommutes_eval_local_right, anticommutes_self,
        b1, b2, b3, e4, g1, hpq, hqp]
      simp
    · simp only [Function.update_noteq hpq, Function.update_noteq hqq]
      exact ⟨d1, d2, d3⟩

theorem scatter_eval_pair (t : Tableau) (c q : Nat) (p : PauliString) :
    t.scatter_eval [c, q] p =
      (PauliString.mul_pow t.num_qubits 0 (t.eval_local c (p.x 0) (p.z 0))
        (t.eval_local q (p.x 1) (p.z 1))).xor_sign p.sign := by
  simp [Tableau.scatter_eval, List.range_succ, mul_pow_zero_left]

theorem inplace_scatter_prepend_pair (t gate : Tableau) (c q : Nat) (hcq : c ≠ q) :
    t.inplace_scatter_prepend gate [c, q] =
      { num_qubits := t.num_qubits
        x_obs := Function.update (Function.update t.x_obs c (t.scatter_eval [c, q] (gate.x_obs 0)))
          q (t.scatter_eval [c, q] (gate.x_obs 1))
        z_obs := Function.update (Function.update t.z_obs c (t.scatter_eval [c, q] (gate.z_obs 0)))
          q (t.scatter_eval [c, q] (gate.z_obs 1)) } := by
  unfold Tableau.inplace_scatter_prepend
  have hidx : ∀ k, List.indexOf k [c, q] = if k = c then 0 else if k = q then 1 else 2 := by
    intro k
    by_cases h1 : k = c
    · subst h1; simp [List.indexOf_cons]
    · by_cases h2 : k = q
      · subst h2
        have : ¬ (c = k) := fun h => h1 h.symm
        simp [List.indexOf_cons, this, h1]
      · have h1' : ¬ (c = k) := fun h => h1 h.symm
        have h2' : ¬ (q = k) := fun h => h2 h.symm
        simp [List.indexOf_cons, h1, h2, h1', h2']
  congr 1
  · funext k
    rw [hidx k]
    by_cases h1 : k = c
    · subst h1
      simp [Function.update_noteq hcq]
    · by_cases h2 : k = q
      · subst h2
        simp [h1]
      · simp [h1, h2, Function.update_noteq]
  · funext k
    rw [hidx k]
    by_cases h1 : k = c
    · subst h1
      simp [Function.update_noteq hcq]
    · by_cases h2 : k = q
      · subst h2
        simp [h1]
      · simp [h1, h2, Function.update_noteq]

theorem anticommutes_scatter_left (t : Tableau) (c q n : Nat) (p r : PauliString) :
    anticommutes n (t.scatter_eval [c, q] p) r =
      (((p.x 0 && anticommutes n (t.x_obs c) r) ^^ (p.z 0 && anticommutes n (t.z_obs c) r)) ^^
       ((p.x 1 && anticommutes n (t.x_obs q) r) ^^ (p.z 1 && anticommutes n (t.z_obs q) r))) := by
  rw [scatter_eval_pair, anticommutes_xor_sign_left, anticommutes_mul_left,
    anticommutes_eval_local_left, anticommutes_eval_local_left]

theorem anticommutes_scatter_right (t : Tableau) (c q n : Nat) (p r : PauliString) :
    anticommutes n r (t.scatter_eval [c, q] p) =
      (((p.x 0 && anticommutes n r (t.x_obs c)) ^^ (p.z 0 && anticommutes n r (t.z_obs c))) ^^
       ((p.x 1 && anticommutes n r (t.x_obs q)) ^^ (p.z 1 && anticommutes n r (t.z_obs q)))) := by
  rw [scatter_eval_pair, anticommutes_xor_sign_right, anticommutes_mul_right,
    anticommutes_eval_local_right, anticommutes_eval_local_right]

theorem anticommutes_two (p r : PauliString) :
    anticommutes 2 p r =
      (((p.x 0 && r.z 0) ^^ (p.z 0 && r.x 0)) ^^ ((p.x 1 && r.z 1) ^^ (p.z 1 && r.x 1))) := by
  simp [anticommutes]

theorem anticommutes_scatter_scatter (t : Tableau) (c q : Nat) (hc : c < t.num_qubits)
    (hq : q < t.num_qubits) (hcq : c ≠ q) (h : t.commutation_invariant) (p r : PauliString) :
    anticommutes t.num_qubits (t.scatter_eval [c, q] p) (t.scatter_eval [c, q] r)
      = anticommutes 2 p r := by
  obtain ⟨a1, a2, a3⟩ := h c c hc hc
  obtain ⟨b1, b2, b3⟩ := h c q hc hq
  obtain ⟨c1, c2, c3⟩ := h q c hq hc
  obtain ⟨d1, d2, d3⟩ := h q q hq hq
  have hqc : ¬ q = c := fun h => hcq h.symm
  have sym : ∀ a b, anticommutes t.num_qubits (t.z_obs a) (t.x_obs b)
      = anticommutes t.num_qubits (t.x_obs b) (t.z_obs a) :=
    fun a b => anticommutes_symm _ _ _
  rw [anticommutes_two, anticommutes_scatter_left]
  simp only [anticommutes_scatter_right, sym, a1, a2, a3, b1, b2, b3, c1, c2, c3, d1, d2, d3,
    hcq, hqc, decide_True, decide_False]
  cases p.x 0 <;> cases p.z 0 <;> cases p.x 1 <;> cases p.z 1 <;>
    cases r.x 0 <;> cases r.z 0 <;> cases r.x 1 <;> cases r.z 1 <;> rfl

theorem anticommutes_scatter_old (t : Tableau) (c q k : Nat) (hc : c < t.num_qubits)
    (hq : q < t.num_qubits) (hk : k < t.num_qubits) (hkc : k ≠ c) (hkq : k ≠ q)
    (h : t.commutation_invariant) (p : PauliString) :
    anticommutes t.num_qubits (t.scatter_eval [c, q] p) (t.x_obs k) = false ∧
    anticommutes t.num_qubits (t.scatter_eval [c, q] p) (t.z_obs k) = false ∧
    anticommutes t.num_qubits (t.x_obs k) (t.scatter_eval [c, q] p) = false ∧
    anticommutes t.num_qubits (t.z_obs k) (t.scatter_eval [c, q] p) = false := by
  obtain ⟨a1, a2, a3⟩ := h c k hc hk
  obtain ⟨b1, b2, b3⟩ := h q k hq hk
  obtain ⟨c1, c2, c3⟩ := h k c hk hc
  obtain ⟨d1, d2, d3⟩ := h k q hk hq
  have hck : ¬ c = k := fun h => hkc h.symm
  have hqk : ¬ q = k := fun h => hkq h.symm
  have sym : ∀ a b, anticommutes t.num_qubits (t.z_obs a) (t.x_obs b)
      = anticommutes t.num_qubits (t.x_obs b) (t.z_obs a) :=
    fun a b => anticommutes_symm _ _ _
  simp only [anticommutes_scatter_left, anticommutes_scatter_right, sym, a1, a2, a3, b1, b2,
    b3, c1, c2, c3, d1, d2, d3, hck, hqk, hkc, hkq, decide_False]
  simp

theorem commutation_invariant_scatter_pair (t gate : Tableau) (c q : Nat)
    (hc : c < t.num_qubits) (hq : q < t.num_qubits) (hcq : c ≠ q)
    (h : t.commutation_invariant) (hgn : gate.num_qubits = 2)
    (hg : gate.commutation_invariant) :
    (t.inplace_scatter_prepend gate [c, q]).commutation_invariant := by
  rw [inplace_scatter_prepend_pair t gate c q hcq]
  have hqc : q ≠ c := Ne.symm hcq
  have g00 := hg 0 0 (by omega) (by omega)
  have g01 := hg 0 1 (by omega) (by omega)
  have g10 := hg 1 0 (by omega) (by omega)
  have g11 := hg 1 1 (by omega) (by omega)
  rw [hgn] at g00 g01 g10 g11
  simp only [decide_True, decide_False, Nat.zero_ne_one, Nat.one_ne_zero] at g00 g01 g10 g11
  intro p p' hp hp'
  have hp1 : p < t.num_qubits := hp
  have hp2 : p' < t.num_qubits := hp'
  show anticommutes t.num_qubits _ _ = _ ∧ anticommutes t.num_qubits _ _ = _ ∧
    anticommutes t.num_qubits _ _ = _
  by_cases h1 : p = q
  · subst h1
    by_cases h2 : p' = p
    · subst h2
      simp only [Function.update_same, anticommutes_scatter_scatter t c p' hc hq hcq h,
        decide_True]
      exact g11
    · by_cases h3 : p' = c
      · subst h3
        simp only [Function.update_same, Function.update_noteq h2,
          anticommutes_scatter_scatter t p' p hc hq hcq h, hqc, decide_False]
        exact g10
      · simp only [Function.update_same, Function.update_noteq h2, Function.update_noteq h3,
          (anticommutes_scatter_old t c p p' hc hq hp2 h3 h2 h _).1,
          (anticommutes_scatter_old t c p p' hc hq hp2 h3 h2 h _).2.1]
        simp [Ne.symm h2]
  · by_cases h1' : p = c
    · subst h1'
      by_cases h2 : p' = q
      · subst h2
        simp only [Function.update_same, Function.update_noteq h1,
          anticommutes_scatter_scatter t p p' hc hq hcq h, hcq, decide_False]
        exact g01
      · by_cases h3 : p' = p
        · subst h3
          simp only [Function.update_same, Function.update_noteq h2,
            anticommutes_scatter_scatter t p' q hc hq hcq h, decide_True]
          exact g00
        · simp only [Function.update_same, Function.update_noteq h1, Function.update_noteq h2,
            Function.update_noteq h3,
            (anticommutes_scatter_old t p q p' hc hq hp2 h3 h2 h _).1,
            (anticommutes_scatter_old t p q p' hc hq hp2 h3 h2 h _).2.1]
          simp [Ne.symm h3]
    · by_cases h2 : p' = q
      · subst h2
        simp only [Function.update_same, Function.update_noteq h1, Function.update_noteq h1',
          (anticommutes_scatter_old t c p' p hc hq hp1 h1' h1 h _).2.2.1,
          (anticommutes_scatter_old t c p' p hc hq hp1 h1' h1 h _).2.2.2]
        simp [h1]
      · by_cases h3 : p' = c
        · subst h3
          simp only [Function.update_same, Function.update_noteq h1, Function.update_noteq h1',
            Function.update_noteq h2,
            (anticommutes_scatter_old t p' q p hc hq hp1 h1' h1 h _).2.2.1,
            (anticommutes_scatter_old t p' q p hc hq hp1 h1' h1 h _).2.2.2]
          simp [h1']
        · simp only [Function.update_noteq h1, Function.update_noteq h1',
            Function.update_noteq h2, Function.update_noteq h3]
          exact h p p' hp1 hp2

theorem commutation_invariant_gate_CX :
    (gate_tableau 2 (fun p => p.apply_CX 0 1)).commutation_invariant := by
  intro p q hp hq
  have hp' : p < 2 := hp
  have hq' : q < 2 := hq
  interval_cases p <;> interval_cases q <;> decide

theorem commutation_invariant_gate_CY :
    (gate_tableau 2 (fun p => p.apply_CY 0 1)).commutation_invariant := by
  intro p q hp hq
  have hp' : p < 2 := hp
  have hq' : q < 2 := hq
  interval_cases p <;> interval_cases q <;> decide

theorem commutation_invariant_gate_CZ :
    (gate_tableau 2 (fun p => p.apply_CZ 0 1)).commutation_invariant := by
  intro p q hp hq
  have hp' : p < 2 := hp
  have hq' : q < 2 := hq
  interval_cases p <;> interval_cases q <;> decide

theorem commutation_invariant_call (s : ChpSim) (g : GateCall)
    (hv : g.valid s.inv_state.num_qubits = true) (h : s.inv_state.commutation_invariant) :
    (s.call g).inv_state.commutation_invariant := by
  cases g with
  | CX c t =>
    simp only [GateCall.valid, Bool.and_eq_true, decide_eq_true_eq] at hv
    exact commutation_invariant_scatter_pair _ _ c t hv.1.1 hv.1.2 hv.2 h rfl
      commutation_invariant_gate_CX
  | CY c t =>
    simp only [GateCall.valid, Bool.and_eq_true, decide_eq_true_eq] at hv
    exact commutation_invariant_scatter_pair _ _ c t hv.1.1 hv.1.2 hv.2 h rfl
      commutation_invariant_gate_CY
  | CZ c t =>
    simp only [GateCall.valid, Bool.and_eq_true, decide_eq_true_eq] at hv
    exact commutation_invariant_scatter_pair _ _ c t hv.1.1 hv.1.2 hv.2 h rfl
      commutation_invariant_gate_CZ
  | _ q =>
    simp only [GateCall.valid, decide_eq_true_eq] at hv
    exact commutation_invariant_scatter_single _ _ q hv h (by decide)

/-- Every reachable state has a tableau that satisfies the commutation invariant. -/
theorem reachable_commutation_invariant (s : ChpSim) (h : Reachable s) :
    s.inv_state.commutation_invariant := by
  induction h with
  | fresh n seed => exact commutation_invariant_identity n
  | gate s g _ hv ih => exact commutation_invariant_call s g hv ih
  | measure s target bias _ _ ih => exact commutation_invariant_measure s target bias ih
  | measure_many s targets bias _ _ ih =>
    exact commutation_invariant_measure_many s targets bias ih

/-- C8. Conjugation laws as equalities of simulator states: on a reachable state and for
`q < n`, `H(q); X(q); H(q)` leaves the state of `Z(q)`, `H(q); Z(q); H(q)` the state of
`X(q)`, and `SQRT_Z(q); X(q); SQRT_Z_DAG(q)` the state of `Y(q)`. -/
theorem conjugation_laws (s : ChpSim) (q : Nat) (hr : Reachable s)
    (hq : q < s.inv_state.num_qubits) :
    ((s.H q).X q).H q = s.Z q ∧ ((s.H q).Z q).H q = s.X q ∧
      ((s.SQRT_Z q).X q).SQRT_Z_DAG q = s.Y q := by
  refine ⟨H_X_H_eq_Z s q, H_Z_H_eq_X s q, SQRT_Z_X_SQRT_Z_DAG_eq_Y s q ?_⟩
  rw [phase_count_odd_iff]
  have h := (reachable_commutation_invariant s hr q q hq hq).1
  simpa using h

theorem conjugation_laws_witness :
    (((ChpSim.new 1 example_rng).H 0).X 0).H 0 = (ChpSim.new 1 example_rng).Z 0 ∧
      (((ChpSim.new 1 example_rng).H 0).Z 0).H 0 = (ChpSim.new 1 example_rng).X 0 ∧
      (((ChpSim.new 1 example_rng).SQRT_Z 0).X 0).SQRT_Z_DAG 0
        = (ChpSim.new 1 example_rng).Y 0 :=
  conjugation_laws (ChpSim.new 1 example_rng) 0 (Reachable.fresh 1 example_rng) (by decide)


/-! ### Reachable states and the commutation invariant -/

/-- C13. Every state reachable from a fresh simulator by gate-method calls with valid
targets, `measure` and `measure_many` has a stored tableau that satisfies the commutation
invariant: `X_obs[p]` anticommutes with `Z_obs[q]` iff `p = q`, the `X_obs` commute with each
other and the `Z_obs` commute with each other. -/
theorem reachable_symplectic (s : ChpSim) (h : Reachable s) (p q : Nat)
    (hp : p < s.inv_state.num_qubits) (hq : q < s.inv_state.num_qubits) :
    (anticommutes s.inv_state.num_qubits (s.inv_state.x_obs p) (s.inv_state.z_obs q) = true
      ↔ p = q) ∧
    anticommutes s.inv_state.num_qubits (s.inv_state.x_obs p) (s.inv_state.x_obs q) = false ∧
    anticommutes s.inv_state.num_qubits (s.inv_state.z_obs p) (s.inv_state.z_obs q)
      = false := by
  obtain ⟨h1, h2, h3⟩ := reachable_commutation_invariant s h p q hp hq
  refine ⟨?_, h2, h3⟩
  rw [h1]
  simp

theorem reachable_symplectic_witness :
    (anticommutes (((ChpSim.new 2 example_rng).H 0).CX 0 1).inv_state.num_qubits
        ((((ChpSim.new 2 example_rng).H 0).CX 0 1).inv_state.x_obs 0)
        ((((ChpSim.new 2 example_rng).H 0).CX 0 1).inv_state.z_obs 1) = true ↔ 0 = 1) ∧
    anticommutes (((ChpSim.new 2 example_rng).H 0).CX 0 1).inv_state.num_qubits
        ((((ChpSim.new 2 example_rng).H 0).CX 0 1).inv_state.x_obs 0)
        ((((ChpSim.new 2 example_rng).H 0).CX 0 1).inv_state.x_obs 1) = false ∧
    anticommutes (((ChpSim.new 2 example_rng).H 0).CX 0 1).inv_state.num_qubits
        ((((ChpSim.new 2 example_rng).H 0).CX 0 1).inv_state.z_obs 0)
        ((((ChpSim.new 2 example_rng).H 0).CX 0 1).inv_state.z_obs 1) = false :=
  reachable_symplectic (((ChpSim.new 2 example_rng).H 0).CX 0 1)
    (Reachable.gate _ (GateCall.CX 0 1)
      (Reachable.gate _ (GateCall.H 0) (Reachable.fresh 2 example_rng) (by decide))
      (by decide))
    0 1 (by decide) (by decide)

/-! ### The determinism test and the pivot search -/

/-- C17. The lane-level determinism test agrees with the bit-level pivot search: when the
padding bits of the `x` part of `Z_obs[q]` (indices from `n` up to `ceil256(n)`) are zero,
`is_deterministic(q)` holds iff no index `p < n` has the `x` bit of `Z_obs[q]` set, iff
the pivot search of `measure_while_transposed` on the same tableau finds no pivot. -/
theorem is_deterministic_iff_no_pivot (s : ChpSim) (q : Nat)
    (hpad : ∀ j, s.inv_state.num_qubits ≤ j → j < ceil256 s.inv_state.num_qubits →
      (s.inv_state.z_obs q).x j = false) :
    (s.is_deterministic q = true ↔
      ∀ p, p < s.inv_state.num_qubits → (s.inv_state.z_obs q).x p = false) ∧
    (s.is_deterministic q = true ↔
      find_pivot (BlockTransposedTableau.create s.inv_state) q = none) := by
  have h1 : s.is_deterministic q = true ↔
      ∀ p, p < s.inv_state.num_qubits → (s.inv_state.z_obs q).x p = false := by
    rw [is_deterministic_iff]
    constructor
    · intro h p hp
      exact h p (Nat.lt_of_lt_of_le hp (le_ceil256 _))
    · intro h j hj
      by_cases hjn : j < s.inv_state.num_qubits
      · exact h j hjn
      · exact hpad j (Nat.le_of_not_lt hjn) hj
  refine ⟨h1, ?_⟩
  rw [h1]
  constructor
  · intro h
    cases hf : find_pivot (BlockTransposedTableau.create s.inv_state) q with
    | none => rfl
    | some p =>
      obtain ⟨hp, hx, _⟩ := find_pivot_some _ q p hf
      have := h p hp
      simp only [BlockTransposedTableau.z_obs_x_bit, BlockTransposedTableau.create] at hx
      rw [this] at hx
      cases hx
  · intro h p hp
    exact find_pivot_none _ q h p hp

theorem is_deterministic_iff_no_pivot_witness :
    (((ChpSim.new 1 example_rng).H 0).is_deterministic 0 = true ↔
      ∀ p, p < ((ChpSim.new 1 example_rng).H 0).inv_state.num_qubits →
        (((ChpSim.new 1 example_rng).H 0).inv_state.z_obs 0).x p = false) ∧
    (((ChpSim.new 1 example_rng).H 0).is_deterministic 0 = true ↔
      find_pivot (BlockTransposedTableau.create ((ChpSim.new 1 example_rng).H 0).inv_state) 0
        = none) :=
  is_deterministic_iff_no_pivot ((ChpSim.new 1 example_rng).H 0) 0
    (fun j hj _ => ((reachable_padding_zero _
      (Reachable.gate _ (GateCall.H 0) (Reachable.fresh 1 example_rng) (by decide)) 0).2 j
      hj).1)


/-! ### Pivot selection and cancellation -/

theorem append_CX_z_obs_x_bit_ne (tt : BlockTransposedTableau) (target pivot a q : Nat)
    (hq : q ≠ a) :
    (tt.append_CX pivot a).z_obs_x_bit target q = tt.z_obs_x_bit target q := by
  simp only [BlockTransposedTableau.z_obs_x_bit, BlockTransposedTableau.append_CX,
    BlockTransposedTableau.append_row_op, PauliString.apply_CX]
  rw [Function.update_noteq hq]

/-- The cancellation loop over a list without repetition appends `CX(pivot, r)` exactly for
the listed `r` whose `x` bit of `Z_obs[target]` is set in the view the loop starts from. -/
theorem cancel_fold_eq_filter (target pivot : Nat) (l : List Nat) (hl : l.Nodup) :
    ∀ tt : BlockTransposedTableau,
      l.foldl (fun tt q => if tt.z_obs_x_bit target q then tt.append_CX pivot q else tt) tt
        = (l.filter (fun r => tt.z_obs_x_bit target r)).foldl
            (fun tt r => tt.append_CX pivot r) tt := by
  induction l with
  | nil => intro tt; rfl
  | cons a l ih =>
    intro tt
    have ha : a ∉ l := (List.nodup_cons.mp hl).1
    have hl' : l.Nodup := (List.nodup_cons.mp hl).2
    rw [List.foldl_cons]
    by_cases hx : tt.z_obs_x_bit target a = true
    · rw [if_pos hx, ih hl' (tt.append_CX pivot a), List.filter_cons_of_pos hx,
        List.foldl_cons]
      congr 1
      apply List.filter_congr
      intro q hq
      have hqa : q ≠ a := fun h => ha (h ▸ hq)
      rw [append_CX_z_obs_x_bit_ne tt target pivot a q hqa]
    · rw [if_neg hx, ih hl' tt, List.filter_cons_of_neg hx]

/-- C18. Pivot selection and cancellation: when `Z_obs[target]` has an `x` bit set below
`n`, the pivot search returns the smallest index whose `x` bit is set; the cancellation loop
is the sequence of `CX(pivot, r)` for exactly the indices `pivot < r < n` whose `x` bit of
`Z_obs[target]` is set, in increasing order; and after it the `x` bit of `Z_obs[target]` is
set at the pivot and at no other index below `n`. -/
theorem pivot_selection_and_cancellation (transposed : BlockTransposedTableau) (target : Nat)
    (h : ∃ j, j < transposed.tableau.num_qubits ∧ transposed.z_obs_x_bit target j = true) :
    ∃ pivot, find_pivot transposed target = some pivot ∧
      pivot < transposed.tableau.num_qubits ∧
      transposed.z_obs_x_bit target pivot = true ∧
      (∀ j, j < pivot → transposed.z_obs_x_bit target j = false) ∧
      cancel_loop transposed target pivot =
        ((List.range' (pivot + 1) (transposed.tableau.num_qubits - (pivot + 1))).filter
          (fun r => transposed.z_obs_x_bit target r)).foldl
          (fun tt r => tt.append_CX pivot r) transposed ∧
      ∀ j, j < transposed.tableau.num_qubits →
        (cancel_loop transposed target pivot).z_obs_x_bit target j = decide (j = pivot) := by
  obtain ⟨pivot, hp⟩ := find_pivot_isSome transposed target h
  obtain ⟨hlt, hx, hmin⟩ := find_pivot_some transposed target pivot hp
  obtain ⟨_, c2, c3, c4⟩ := cancel_loop_spec transposed target pivot hx
  refine ⟨pivot, hp, hlt, hx, hmin, ?_, ?_⟩
  · exact cancel_fold_eq_filter target pivot _ (List.nodup_range' _ _) transposed
  · intro j hj
    by_cases hjp : j = pivot
    · rw [hjp, c2]; simp
    · rcases Nat.lt_or_gt_of_ne hjp with hlt' | hgt
      · rw [c4 j (Or.inl (Nat.le_of_lt hlt')), hmin j hlt']; simp [hjp]
      · rw [c3 j hgt hj]; simp [hjp]

theorem pivot_selection_and_cancellation_witness :
    ∃ pivot, find_pivot two_x_view 1 = some pivot ∧
      pivot < two_x_view.tableau.num_qubits ∧
      two_x_view.z_obs_x_bit 1 pivot = true ∧
      (∀ j, j < pivot → two_x_view.z_obs_x_bit 1 j = false) ∧
      cancel_loop two_x_view 1 pivot =
        ((List.range' (pivot + 1) (two_x_view.tableau.num_qubits - (pivot + 1))).filter
          (fun r => two_x_view.z_obs_x_bit 1 r)).foldl
          (fun tt r => tt.append_CX pivot r) two_x_view ∧
      ∀ j, j < two_x_view.tableau.num_qubits →
        (cancel_loop two_x_view 1 pivot).z_obs_x_bit 1 j = decide (j = pivot) :=
  pivot_selection_and_cancellation two_x_view 1 ⟨1, by decide, by decide⟩


/-! ### The two loops of `measure_many` -/

theorem first_pass_append (s : ChpSim) (targets l1 l2 : List Nat)
    (init : List Bool × List Bool × Bool) :
    measure_many_first_pass s targets (l1 ++ l2) init
      = measure_many_first_pass s targets l2 (measure_many_first_pass s targets l1 init) := by
  unfold measure_many_first_pass
  rw [List.foldl_append]

theorem first_pass_single (s : ChpSim) (targets : List Nat) (k : Nat)
    (init : List Bool × List Bool × Bool) :
    measure_many_first_pass s targets [k] init =
      if s.is_deterministic (targets.getD k 0) then
        (init.1.set k true, init.2.1.set k (s.inv_state.z_sign (targets.getD k 0)), init.2.2)
      else (init.1, init.2.1, true) := by
  rfl

/-- The first loop over the indices below `j`: entry `i` of `finished` and of `results` is
overwritten exactly when `i < j` and `targets[i]` is deterministic, and the flag records
whether some target below `j` is not. -/
theorem first_pass_range (s : ChpSim) (targets : List Nat)
    (init : List Bool × List Bool × Bool) (j : Nat) :
    (∀ i, (measure_many_first_pass s targets (List.range j) init).1[i]? =
      if i < j ∧ s.is_deterministic (targets.getD i 0) = true
      then (init.1[i]?).map (fun _ => true) else init.1[i]?) ∧
    (∀ i, (measure_many_first_pass s targets (List.range j) init).2.1[i]? =
      if i < j ∧ s.is_deterministic (targets.getD i 0) = true
      then (init.2.1[i]?).map (fun _ => s.inv_state.z_sign (targets.getD i 0))
      else init.2.1[i]?) ∧
    ((measure_many_first_pass s targets (List.range j) init).2.2 =
      (init.2.2 || (List.range j).any (fun k => !s.is_deterministic (targets.getD k 0)))) := by
  induction j with
  | zero =>
    simp [measure_many_first_pass]
  | succ j ih =>
    obtain ⟨h1, h2, h3⟩ := ih
    rw [List.range_succ, first_pass_append, first_pass_single]
    by_cases hd : s.is_deterministic (targets.getD j 0) = true
    · rw [if_pos hd]
      refine ⟨?_, ?_, ?_⟩
      · intro i
        simp only [List.getElem?_set']
        by_cases hij : j = i
        · subst hij
          simp [-List.getD_eq_getElem?_getD, Function.const, h1 j, hd]
          rfl
        · have : (i < j + 1) ↔ (i < j) := by omega
          simp [-List.getD_eq_getElem?_getD, hij, h1 i, this]
      · intro i
        simp only [List.getElem?_set']
        by_cases hij : j = i
        · subst hij
          simp [-List.getD_eq_getElem?_getD, Function.const, h2 j, hd]
          rfl
        · have : (i < j + 1) ↔ (i < j) := by omega
          simp [-List.getD_eq_getElem?_getD, hij, h2 i, this]
      · simp [-List.getD_eq_getElem?_getD, h3, hd, List.range_succ]
    · rw [if_neg hd]
      refine ⟨?_, ?_, ?_⟩
      · intro i
        by_cases hij : j = i
        · subst hij
          simp [-List.getD_eq_getElem?_getD, Function.const, h1 j, hd]
        · have : (i < j + 1) ↔ (i < j) := by omega
          simp [-List.getD_eq_getElem?_getD, h1 i, this]
      · intro i
        by_cases hij : j = i
        · subst hij
          simp [-List.getD_eq_getElem?_getD, Function.const, h2 j, hd]
        · have : (i < j + 1) ↔ (i < j) := by omega
          simp [-List.getD_eq_getElem?_getD, h2 i, this]
      · simp [-List.getD_eq_getElem?_getD, hd, List.range_succ]

theorem first_pass_length (s : ChpSim) (targets : List Nat) (ks : List Nat) :
    ∀ init : List Bool × List Bool × Bool,
      (measure_many_first_pass s targets ks init).1.length = init.1.length ∧
      (measure_many_first_pass s targets ks init).2.1.length = init.2.1.length := by
  induction ks with
  | nil => intro init; exact ⟨rfl, rfl⟩
  | cons k ks ih =>
    intro init
    unfold measure_many_first_pass
    rw [List.foldl_cons]
    split
    · obtain ⟨h1, h2⟩ := ih (init.1.set k true,
        init.2.1.set k (s.inv_state.z_sign (targets.getD k 0)), init.2.2)
      unfold measure_many_first_pass at h1 h2
      rw [h1, h2]
      simp
    · obtain ⟨h1, h2⟩ := ih (init.1, init.2.1, true)
      unfold measure_many_first_pass at h1 h2
      rw [h1, h2]
      exact ⟨rfl, rfl⟩

theorem second_pass_append (targets : List Nat) (bias : ℚ) (finished : List Bool)
    (l1 l2 : List Nat) (init : List Bool × BlockTransposedTableau × Rng) :
    measure_many_second_pass targets bias finished (l1 ++ l2) init
      = measure_many_second_pass targets bias finished l2
          (measure_many_second_pass targets bias finished l1 init) := by
  unfold measure_many_second_pass
  rw [List.foldl_append]

theorem second_pass_single (targets : List Nat) (bias : ℚ) (finished : List Bool) (k : Nat)
    (init : List Bool × BlockTransposedTableau × Rng) :
    measure_many_second_pass targets bias finished [k] init =
      if !finished.getD k false then
        ((init.1.set k (measure_while_transposed init.2.2 init.2.1 (targets.getD k 0) bias).1),
          (measure_while_transposed init.2.2 init.2.1 (targets.getD k 0) bias).2.1,
          (measure_while_transposed init.2.2 init.2.1 (targets.getD k 0) bias).2.2)
      else init := by
  rfl

theorem second_pass_cons (targets : List Nat) (bias : ℚ) (finished : List Bool) (k : Nat)
    (ks : List Nat) (init : List Bool × BlockTransposedTableau × Rng) :
    measure_many_second_pass targets bias finished (k :: ks) init
      = measure_many_second_pass targets bias finished ks
          (measure_many_second_pass targets bias finished [k] init) := by
  rfl

/-- The second loop keeps the length of `results`, and keeps every entry whose index is not
in the list it runs over or is marked finished. -/
theorem second_pass_results (targets : List Nat) (bias : ℚ) (finished : List Bool)
    (ks : List Nat) :
    ∀ init : List Bool × BlockTransposedTableau × Rng,
      (measure_many_second_pass targets bias finished ks init).1.length = init.1.length ∧
      ∀ i, (i ∉ ks ∨ finished.getD i false = true) →
        (measure_many_second_pass targets bias finished ks init).1[i]? = init.1[i]? := by
  induction ks with
  | nil => intro init; exact ⟨rfl, fun _ _ => rfl⟩
  | cons k ks ih =>
    intro init
    rw [second_pass_cons]
    obtain ⟨h1, h2⟩ := ih (measure_many_second_pass targets bias finished [k] init)
    rw [second_pass_single] at h1 h2 ⊢
    by_cases hf : (!finished.getD k false) = true
    · rw [if_pos hf] at h1 h2 ⊢
      refine ⟨by rw [h1]; simp, ?_⟩
      intro i hi
      have hik : k ≠ i := by
        rcases hi with hi | hi
        · intro h; exact hi (h ▸ List.mem_cons_self k ks)
        · intro h; subst h; rw [hi] at hf; cases hf
      have hi' : i ∉ ks ∨ finished.getD i false = true := by
        rcases hi with hi | hi
        · exact Or.inl (fun h => hi (List.mem_cons_of_mem k h))
        · exact Or.inr hi
      rw [h2 i hi']
      simp only
      rw [List.getElem?_set_ne hik]
    · rw [if_neg hf] at h1 h2 ⊢
      refine ⟨h1, ?_⟩
      intro i hi
      by_cases hik : i = k
      · subst hik
        have hfin : finished.getD i false = true := by
          cases h : finished.getD i false
          · rw [h] at hf; simp at hf
          · rfl
        exact h2 i (Or.inr hfin)
      · have hi' : i ∉ ks ∨ finished.getD i false = true := by
          rcases hi with hi | hi
          · exact Or.inl (fun h => hi (List.mem_cons_of_mem k h))
          · exact Or.inr hi
        exact h2 i hi'

theorem range_split (m k : Nat) (hk : k < m) :
    List.range m = List.range (k + 1) ++ List.range' (k + 1) (m - (k + 1)) := by
  rw [List.range_eq_range', List.range_eq_range']
  have h := List.range'_append_1 0 (k + 1) (m - (k + 1))
  rw [Nat.zero_add] at h
  rw [h]
  congr 1
  omega

/-- What the first loop of `measure_many` leaves, entry by entry. -/
theorem first_pass_initial (s : ChpSim) (targets : List Nat) :
    (∀ i, (measure_many_first_pass s targets (List.range targets.length)
        (List.replicate targets.length false, List.replicate targets.length false,
          false)).1.getD i false
      = (decide (i < targets.length) && s.is_deterministic (targets.getD i 0))) ∧
    (∀ i, i < targets.length →
      (measure_many_first_pass s targets (List.range targets.length)
        (List.replicate targets.length false, List.replicate targets.length false,
          false)).2.1[i]?
      = some (s.is_deterministic (targets.getD i 0) && s.inv_state.z_sign (targets.getD i 0))) ∧
    ((measure_many_first_pass s targets (List.range targets.length)
        (List.replicate targets.length false, List.replicate targets.length false,
          false)).2.2
      = (List.range targets.length).any (fun k => !s.is_deterministic (targets.getD k 0))) ∧
    (measure_many_first_pass s targets (List.range targets.length)
        (List.replicate targets.length false, List.replicate targets.length false,
          false)).2.1.length = targets.length := by
  obtain ⟨h1, h2, h3⟩ := first_pass_range s targets
    (List.replicate targets.length false, List.replicate targets.length false, false)
    targets.length
  obtain ⟨_, l2⟩ := first_pass_length s targets (List.range targets.length)
    (List.replicate targets.length false, List.replicate targets.length false, false)
  refine ⟨?_, ?_, ?_, ?_⟩
  · intro i
    rw [List.getD_eq_getElem?_getD, h1 i]
    by_cases hi : i < targets.length
    · cases hd : s.is_deterministic (targets.getD i 0) <;>
        simp [-List.getD_eq_getElem?_getD, hi, hd]
    · simp [-List.getD_eq_getElem?_getD, hi, List.getElem?_replicate]
  · intro i hi
    rw [h2 i]
    cases hd : s.is_deterministic (targets.getD i 0) <;>
      simp [-List.getD_eq_getElem?_getD, hi, hd]
  · rw [h3]
    simp
  · rw [l2]
    simp

/-- The entry of `measure_many` for a target that is deterministic before the call. -/
theorem measure_many_entry_of_deterministic (s : ChpSim) (targets : List Nat) (bias : ℚ)
    (k : Nat) (hk : k < targets.length)
    (hd : s.is_deterministic (targets.getD k 0) = true) :
    (s.measure_many targets bias).1[k]? = some (s.inv_state.z_sign (targets.getD k 0)) := by
  obtain ⟨f1, f2, _, _⟩ := first_pass_initial s targets
  have hres := f2 k hk
  rw [hd, Bool.true_and] at hres
  have hfin := f1 k
  rw [hd] at hfin
  simp only [hk, decide_True, Bool.and_self] at hfin
  unfold ChpSim.measure_many
  simp only
  split
  · rw [(second_pass_results targets bias _ (List.range targets.length) _).2 k (Or.inr hfin)]
    exact hres
  · exact hres

/-- The entry of `measure_many` for a target that is not deterministic before the call: the
bit that `measure_while_transposed` returns on the view and generator left by the second
loop over the indices below `k`. -/
theorem measure_many_entry_of_random (s : ChpSim) (targets : List Nat) (bias : ℚ)
    (k : Nat) (hk : k < targets.length)
    (hd : s.is_deterministic (targets.getD k 0) = false) :
    (s.measure_many targets bias).1[k]? =
      some (measure_while_transposed
        (measure_many_second_pass targets bias
          (measure_many_first_pass s targets (List.range targets.length)
            (List.replicate targets.length false, List.replicate targets.length false,
              false)).1
          (List.range k)
          ((measure_many_first_pass s targets (List.range targets.length)
            (List.replicate targets.length false, List.replicate targets.length false,
              false)).2.1,
            BlockTransposedTableau.create s.inv_state, s.rng)).2.2
        (measure_many_second_pass targets bias
          (measure_many_first_pass s targets (List.range targets.length)
            (List.replicate targets.length false, List.replicate targets.length false,
              false)).1
          (List.range k)
          ((measure_many_first_pass s targets (List.range targets.length)
            (List.replicate targets.length false, List.replicate targets.length false,
              false)).2.1,
            BlockTransposedTableau.create s.inv_state, s.rng)).2.1
        (targets.getD k 0) bias).1 := by
  obtain ⟨f1, _, f3, f4⟩ := first_pass_initial s targets
  have hfin := f1 k
  rw [hd, Bool.and_false] at hfin
  have hany : (measure_many_first_pass s targets (List.range targets.length)
      (List.replicate targets.length false, List.replicate targets.length false,
        false)).2.2 = true := by
    rw [f3, List.any_eq_true]
    exact ⟨k, List.mem_range.mpr hk, by rw [hd]; rfl⟩
  unfold ChpSim.measure_many
  simp only
  rw [if_pos hany]
  simp only
  generalize measure_many_first_pass s targets (List.range targets.length)
      (List.replicate targets.length false, List.replicate targets.length false, false)
    = first at hfin f4 ⊢
  rw [range_split targets.length k hk, second_pass_append]
  have hnot : k ∉ List.range' (k + 1) (targets.length - (k + 1)) := by
    rw [List.mem_range'_1]
    omega
  rw [(second_pass_results targets bias _ _ _).2 k (Or.inl hnot), List.range_succ,
    second_pass_append, second_pass_single]
  have hf : (!first.1.getD k false) = true := by
    rw [hfin]; rfl
  rw [if_pos hf]
  simp only
  apply List.getElem?_set_self
  rw [(second_pass_results targets bias _ (List.range k) _).1, f4]
  exact hk

theorem measure_many_length (s : ChpSim) (targets : List Nat) (bias : ℚ) :
    (s.measure_many targets bias).1.length = targets.length := by
  obtain ⟨_, _, _, f4⟩ := first_pass_initial s targets
  unfold ChpSim.measure_many
  simp only
  split
  · rw [(second_pass_results targets bias _ (List.range targets.length) _).1]
    exact f4
  · exact f4

/-- C12. For every state, target list and bias, and every index `k` whose target is
deterministic in the state before the call, the `k`-th result of `measure_many` is the sign
of `Z_obs[targets[k]]` in that state, wherever `k` stands among the random targets. -/
theorem measure_many_deterministic_result (s : ChpSim) (targets : List Nat) (bias : ℚ)
    (k : Nat) (hk : k < targets.length)
    (hd : s.is_deterministic (targets.getD k 0) = true) :
    (s.measure_many targets bias).1[k]? = some (s.inv_state.z_obs (targets.getD k 0)).sign :=
  measure_many_entry_of_deterministic s targets bias k hk hd

theorem measure_many_deterministic_result_witness :
    (((ChpSim.new 2 example_rng).H 0).measure_many [0, 1] (1 / 2)).1[1]?
      = some (((ChpSim.new 2 example_rng).H 0).inv_state.z_obs ([0, 1].getD 1 0)).sign :=
  measure_many_deterministic_result ((ChpSim.new 2 example_rng).H 0) [0, 1] (1 / 2) 1
    (by decide) (by decide)

/-- C16. For every state, target list and bias, `measure_many` returns exactly
`targets.size()` bits; the `k`-th one is the sign of `Z_obs[targets[k]]` before the call when
that target is deterministic then, and otherwise the bit that `measure_while_transposed`
returns for `targets[k]` on the view and generator left by the unfinished targets before
`k`; for the empty list it returns the empty list and the simulator as it was (no coin
drawn, tableau unchanged), whatever the number of qubits. -/
theorem measure_many_results (s : ChpSim) (targets : List Nat) (bias : ℚ) :
    (s.measure_many targets bias).1.length = targets.length ∧
    (∀ k, k < targets.length → s.is_deterministic (targets.getD k 0) = true →
      (s.measure_many targets bias).1[k]? = some (s.inv_state.z_sign (targets.getD k 0))) ∧
    (∀ k, k < targets.length → s.is_deterministic (targets.getD k 0) = false →
      (s.measure_many targets bias).1[k]? =
        some (measure_while_transposed
          (measure_many_second_pass targets bias
            (measure_many_first_pass s targets (List.range targets.length)
              (List.replicate targets.length false, List.replicate targets.length false,
                false)).1
            (List.range k)
            ((measure_many_first_pass s targets (List.range targets.length)
              (List.replicate targets.length false, List.replicate targets.length false,
                false)).2.1,
              BlockTransposedTableau.create s.inv_state, s.rng)).2.2
          (measure_many_second_pass targets bias
            (measure_many_first_pass s targets (List.range targets.length)
              (List.replicate targets.length false, List.replicate targets.length false,
                false)).1
            (List.range k)
            ((measure_many_first_pass s targets (List.range targets.length)
              (List.replicate targets.length false, List.replicate targets.length false,
                false)).2.1,
              BlockTransposedTableau.create s.inv_state, s.rng)).2.1
          (targets.getD k 0) bias).1) ∧
    s.measure_many [] bias = ([], s) :=
  ⟨measure_many_length s targets bias,
   fun k hk hd => measure_many_entry_of_deterministic s targets bias k hk hd,
   fun k hk hd => measure_many_entry_of_random s targets bias k hk hd,
   rfl⟩

theorem measure_many_empty_zero_qubits (seed : Rng) (bias : ℚ) :
    (ChpSim.new 0 seed).measure_many [] bias = ([], ChpSim.new 0 seed) :=
  rfl


/-! ### Batched and sequential measurement -/

/-- A Pauli string whose `x` bit at the control is clear is changed by the `CX` row in its
`z` bits only. -/
theorem apply_CX_of_x_clear (p : PauliString) (c t : Nat) (hc : p.x c = false) :
    (p.apply_CX c t).x = p.x ∧ (p.apply_CX c t).sign = p.sign := by
  constructor
  · funext j
    simp only [PauliString.apply_CX, hc, Bool.xor_false]
    exact congrFun (Function.update_eq_self t p.x) j
  · simp [PauliString.apply_CX, hc]

theorem cancel_fold_row_preserved (target pivot b : Nat) (l : List Nat) :
    ∀ tt : BlockTransposedTableau, (tt.tableau.z_obs b).x pivot = false →
      ((l.foldl (fun tt q => if tt.z_obs_x_bit target q then tt.append_CX pivot q else tt)
          tt).tableau.z_obs b).x = (tt.tableau.z_obs b).x ∧
      ((l.foldl (fun tt q => if tt.z_obs_x_bit target q then tt.append_CX pivot q else tt)
          tt).tableau.z_obs b).sign = (tt.tableau.z_obs b).sign := by
  induction l with
  | nil => intro tt _; exact ⟨rfl, rfl⟩
  | cons a l ih =>
    intro tt hx
    rw [List.foldl_cons]
    split
    · have h := apply_CX_of_x_clear (tt.tableau.z_obs b) pivot a hx
      have hx' : ((tt.append_CX pivot a).tableau.z_obs b).x pivot = false := by
        show ((tt.tableau.z_obs b).apply_CX pivot a).x pivot = false
        rw [h.1]; exact hx
      obtain ⟨i1, i2⟩ := ih (tt.append_CX pivot a) hx'
      refine ⟨i1.trans ?_, i2.trans ?_⟩
      · exact h.1
      · exact h.2
    · exact ih tt hx

theorem anticommutes_of_single_x (n p : Nat) (a b : PauliString) (k : Nat) (hk : k ≤ n)
    (ha : ∀ j, j < n → a.x j = decide (j = p))
    (hb : ∀ j, j < n → b.x j = false) :
    anticommutes k a b = (decide (p < k) && b.z p) := by
  induction k with
  | zero => simp [anticommutes]
  | succ k ih =>
    have hkn : k < n := by omega
    rw [anticommutes, ih (by omega), ha k hkn, hb k hkn]
    by_cases hpk : k = p
    · subst hpk
      simp
    · have h1 : (p < k + 1) ↔ (p < k) := by omega
      simp [hpk, h1]

/-- A deterministic row stays as it is, `x` bits and sign, through the random branch of a
measurement of another target, when the commutation invariant holds. -/
theorem measure_while_transposed_row_preserved (rng : Rng) (tt : BlockTransposedTableau)
    (target : Nat) (bias : ℚ) (b : Nat)
    (hinv : tt.tableau.commutation_invariant)
    (ht : target < tt.tableau.num_qubits) (hb : b < tt.tableau.num_qubits)
    (hbx : ∀ j, j < tt.tableau.num_qubits → (tt.tableau.z_obs b).x j = false) :
    ((measure_while_transposed rng tt target bias).2.1.tableau.z_obs b).x
      = (tt.tableau.z_obs b).x ∧
    ((measure_while_transposed rng tt target bias).2.1.tableau.z_obs b).sign
      = (tt.tableau.z_obs b).sign := by
  cases hf : find_pivot tt target with
  | none =>
    simp [measure_while_transposed, hf]
  | some pivot =>
    obtain ⟨hp, hx, hmin⟩ := find_pivot_some tt target pivot hf
    obtain ⟨c1, c2, c3, c4⟩ := cancel_loop_spec tt target pivot hx
    obtain ⟨r1, r2⟩ := cancel_fold_row_preserved target pivot b
      (List.range' (pivot + 1) (tt.tableau.num_qubits - (pivot + 1))) tt (hbx pivot hp)
    have hci := commutation_invariant_cancel_loop tt target pivot hp hinv
    -- the z bit of row b at the pivot is clear after the cancellation
    have hanti := (hci target b (by rw [c1]; exact ht) (by rw [c1]; exact hb)).2.2
    rw [c1] at hanti
    have hsx : ∀ j, j < tt.tableau.num_qubits →
        ((cancel_loop tt target pivot).tableau.z_obs target).x j = decide (j = pivot) := by
      intro j hj
      by_cases hjp : j = pivot
      · rw [hjp]; simpa [BlockTransposedTableau.z_obs_x_bit] using c2
      · rcases Nat.lt_or_gt_of_ne hjp with hlt | hgt
        · have := c4 j (Or.inl (Nat.le_of_lt hlt))
          simp only [BlockTransposedTableau.z_obs_x_bit] at this
          rw [this]
          have := hmin j hlt
          simp only [BlockTransposedTableau.z_obs_x_bit] at this
          rw [this]; simp [hjp]
        · have := c3 j hgt hj
          simp only [BlockTransposedTableau.z_obs_x_bit] at this
          rw [this]; simp [hjp]
    have hbx1 : ∀ j, j < tt.tableau.num_qubits →
        ((cancel_loop tt target pivot).tableau.z_obs b).x j = false := by
      intro j hj
      have : ((cancel_loop tt target pivot).tableau.z_obs b).x = (tt.tableau.z_obs b).x := r1
      rw [this]; exact hbx j hj
    have hz : ((cancel_loop tt target pivot).tableau.z_obs b).z pivot = false := by
      have h := anticommutes_of_single_x tt.tableau.num_qubits pivot _ _ tt.tableau.num_qubits
        (Nat.le_refl _) hsx hbx1
      rw [hanti] at h
      simpa [hp] using h.symm
    have hxp : ((cancel_loop tt target pivot).tableau.z_obs b).x pivot = false := hbx1 pivot hp
    -- collapse and reconciliation leave row b alone
    have key2 : ∀ t1 : BlockTransposedTableau, (t1.tableau.z_obs b).x pivot = false →
        (t1.tableau.z_obs b).z pivot = false →
        (((if t1.z_obs_z_bit target pivot then t1.append_H_YZ pivot
            else t1.append_H pivot).tableau.z_obs b).x = (t1.tableau.z_obs b).x ∧
         ((if t1.z_obs_z_bit target pivot then t1.append_H_YZ pivot
            else t1.append_H pivot).tableau.z_obs b).z pivot = false ∧
         ((if t1.z_obs_z_bit target pivot then t1.append_H_YZ pivot
            else t1.append_H pivot).tableau.z_obs b).sign = (t1.tableau.z_obs b).sign) := by
      intro t1 h1 h2
      split
      · simp only [BlockTransposedTableau.append_H_YZ, BlockTransposedTableau.append_row_op,
          PauliString.apply_H_YZ, h1, h2]
        refine ⟨?_, trivial, by simp⟩
        have := Function.update_eq_self pivot (t1.tableau.z_obs b).x
        rw [h1] at this
        simpa using this
      · simp only [BlockTransposedTableau.append_H, BlockTransposedTableau.append_row_op,
          PauliString.apply_H, h1, h2]
        refine ⟨?_, by simp, by simp⟩
        have := Function.update_eq_self pivot (t1.tableau.z_obs b).x
        rw [h1] at this
        exact this
    have key3 : ∀ t2 : BlockTransposedTableau, (t2.tableau.z_obs b).z pivot = false →
        (((if t2.z_sign target != (rng.bernoulli bias).1 then t2.append_X pivot
            else t2).tableau.z_obs b).x = (t2.tableau.z_obs b).x ∧
         ((if t2.z_sign target != (rng.bernoulli bias).1 then t2.append_X pivot
            else t2).tableau.z_obs b).sign = (t2.tableau.z_obs b).sign) := by
      intro t2 h2
      split
      · simp [BlockTransposedTableau.append_X, BlockTransposedTableau.append_row_op,
          PauliString.apply_X, h2]
      · exact ⟨rfl, rfl⟩
    obtain ⟨k1, k2, k3⟩ := key2 (cancel_loop tt target pivot) hxp hz
    obtain ⟨m1, m2⟩ := key3 _ k2
    simp only [measure_while_transposed, hf]
    exact ⟨m1.trans (k1.trans r1), m2.trans (k3.trans r2)⟩

/-- `measure` is always the call of `measure_while_transposed` on a view of the stored
tableau: when the target is deterministic the pivot search finds nothing and the view is
released as it was built. -/
theorem measure_eq_measure_while_transposed (s : ChpSim) (target : Nat) (bias : ℚ) :
    s.measure target bias =
      ((measure_while_transposed s.rng (BlockTransposedTableau.create s.inv_state)
          target bias).1,
       { inv_state := (measure_while_transposed s.rng
            (BlockTransposedTableau.create s.inv_state) target bias).2.1.release
         rng := (measure_while_transposed s.rng
            (BlockTransposedTableau.create s.inv_state) target bias).2.2 }) := by
  cases hd : s.is_deterministic target with
  | false => exact measure_of_not_deterministic s target bias hd
  | true =>
    rw [measure_of_deterministic s target bias hd]
    have hf : find_pivot (BlockTransposedTableau.create s.inv_state) target = none := by
      cases hf : find_pivot (BlockTransposedTableau.create s.inv_state) target with
      | none => rfl
      | some p =>
        obtain ⟨hp, hx, _⟩ := find_pivot_some _ target p hf
        have := (is_deterministic_iff s target).mp hd p
          (Nat.lt_of_lt_of_le hp (le_ceil256 _))
        simp only [BlockTransposedTableau.z_obs_x_bit, BlockTransposedTableau.create] at hx
        rw [this] at hx
        cases hx
    simp only [measure_while_transposed, hf]
    rfl

theorem measure_keeps_deterministic_rows (s0 s : ChpSim) (target : Nat) (bias : ℚ)
    (hinv : s.inv_state.commutation_invariant)
    (hn : s.inv_state.num_qubits = s0.inv_state.num_qubits)
    (ht : target < s0.inv_state.num_qubits)
    (hrows : ∀ b, b < s0.inv_state.num_qubits → s0.is_deterministic b = true →
      s.is_deterministic b = true ∧ s.inv_state.z_sign b = s0.inv_state.z_sign b) :
    ∀ b, b < s0.inv_state.num_qubits → s0.is_deterministic b = true →
      (s.measure target bias).2.is_deterministic b = true ∧
      (s.measure target bias).2.inv_state.z_sign b = s0.inv_state.z_sign b := by
  intro b hb hd0
  obtain ⟨hd, hs⟩ := hrows b hb hd0
  have hx := (is_deterministic_iff s b).mp hd
  have hnq := measure_num_qubits s target bias
  rw [measure_eq_measure_while_transposed] at hnq ⊢
  obtain ⟨r1, r2⟩ := measure_while_transposed_row_preserved s.rng
    (BlockTransposedTableau.create s.inv_state) target bias b hinv
    (by show target < s.inv_state.num_qubits; rw [hn]; exact ht)
    (by show b < s.inv_state.num_qubits; rw [hn]; exact hb)
    (fun j hj => hx j (Nat.lt_of_lt_of_le hj (le_ceil256 _)))
  constructor
  · rw [is_deterministic_iff]
    intro j hj
    simp only at hnq
    rw [hnq] at hj
    show ((measure_while_transposed s.rng (BlockTransposedTableau.create s.inv_state) target
      bias).2.1.tableau.z_obs b).x j = false
    rw [r1]
    exact hx j hj
  · show ((measure_while_transposed s.rng (BlockTransposedTableau.create s.inv_state) target
      bias).2.1.tableau.z_obs b).sign = s0.inv_state.z_sign b
    rw [r2]
    exact hs

theorem measure_sequence_snoc (bias : ℚ) (l : List Nat) (t : Nat) :
    ∀ s : ChpSim, s.measure_sequence bias (l ++ [t]) =
      ((s.measure_sequence bias l).1 ++ [((s.measure_sequence bias l).2.measure t bias).1],
        ((s.measure_sequence bias l).2.measure t bias).2) := by
  induction l with
  | nil => intro s; rfl
  | cons a l ih =>
    intro s
    show ((s.measure a bias).1 :: ((s.measure a bias).2.measure_sequence bias (l ++ [t])).1,
      ((s.measure a bias).2.measure_sequence bias (l ++ [t])).2) = _
    rw [ih (s.measure a bias).2]
    rfl

theorem take_succ_getD (l : List Nat) (k : Nat) (hk : k < l.length) :
    l.take (k + 1) = l.take k ++ [l.getD k 0] := by
  rw [List.take_succ, List.getD_eq_getElem?_getD, List.getElem?_eq_getElem hk]
  rfl

theorem getD_mem (l : List Nat) (k : Nat) (hk : k < l.length) : l.getD k 0 ∈ l := by
  rw [List.getD_eq_getElem?_getD, List.getElem?_eq_getElem hk]
  exact List.getElem_mem hk

/-- The second loop of `measure_many` over the indices below `k` and the sequential
measurement of the first `k` targets reach the same tableau and the same generator, and
every target that was deterministic at the start still is, with the same sign. -/
theorem second_pass_simulates (s : ChpSim) (targets : List Nat) (bias : ℚ)
    (finished results : List Bool)
    (hinv : s.inv_state.commutation_invariant)
    (hT : ∀ t ∈ targets, t < s.inv_state.num_qubits)
    (hF : ∀ i, finished.getD i false
      = (decide (i < targets.length) && s.is_deterministic (targets.getD i 0)))
    (k : Nat) (hk : k ≤ targets.length) :
    (measure_many_second_pass targets bias finished (List.range k)
        (results, BlockTransposedTableau.create s.inv_state, s.rng)).2.1.tableau
      = (s.measure_sequence bias (targets.take k)).2.inv_state ∧
    (measure_many_second_pass targets bias finished (List.range k)
        (results, BlockTransposedTableau.create s.inv_state, s.rng)).2.2
      = (s.measure_sequence bias (targets.take k)).2.rng ∧
    (s.measure_sequence bias (targets.take k)).2.inv_state.commutation_invariant ∧
    (s.measure_sequence bias (targets.take k)).2.inv_state.num_qubits
      = s.inv_state.num_qubits ∧
    (∀ b, b < s.inv_state.num_qubits → s.is_deterministic b = true →
      (s.measure_sequence bias (targets.take k)).2.is_deterministic b = true ∧
      (s.measure_sequence bias (targets.take k)).2.inv_state.z_sign b
        = s.inv_state.z_sign b) := by
  induction k with
  | zero =>
    exact ⟨rfl, rfl, hinv, rfl, fun b _ hd => ⟨hd, rfl⟩⟩
  | succ k ih =>
    have hk' : k < targets.length := by omega
    obtain ⟨i1, i2, i3, i4, i5⟩ := ih (by omega)
    have ht : targets.getD k 0 < s.inv_state.num_qubits := hT _ (getD_mem targets k hk')
    rw [take_succ_getD targets k hk', measure_sequence_snoc, List.range_succ,
      second_pass_append, second_pass_single]
    have hrows := measure_keeps_deterministic_rows s
      (s.measure_sequence bias (targets.take k)).2 (targets.getD k 0) bias i3 i4 ht i5
    have hview : (measure_many_second_pass targets bias finished (List.range k)
        (results, BlockTransposedTableau.create s.inv_state, s.rng)).2.1
        = BlockTransposedTableau.create
            (s.measure_sequence bias (targets.take k)).2.inv_state := by
      show _ = BlockTransposedTableau.mk _
      rw [← i1]
    have hmeas := measure_eq_measure_while_transposed
      (s.measure_sequence bias (targets.take k)).2 (targets.getD k 0) bias
    refine ⟨?_, ?_, commutation_invariant_measure _ _ _ i3,
      (measure_num_qubits _ _ _).trans i4, hrows⟩
    · by_cases hd : s.is_deterministic (targets.getD k 0) = true
      · have hfin : (!finished.getD k false) = false := by
          rw [hF k, hd]; simp [hk']
        rw [hfin]
        simp only [Bool.false_eq_true, if_false]
        rw [i1, measure_of_deterministic _ _ _ (i5 _ ht hd).1]
      · have hfin : (!finished.getD k false) = true := by
          rw [hF k]
          simp only [Bool.not_eq_true] at hd
          rw [hd]; simp
        rw [if_pos hfin, hmeas, hview, i2]
        rfl
    · by_cases hd : s.is_deterministic (targets.getD k 0) = true
      · have hfin : (!finished.getD k false) = false := by
          rw [hF k, hd]; simp [hk']
        rw [hfin]
        simp only [Bool.false_eq_true, if_false]
        rw [i2, measure_of_deterministic _ _ _ (i5 _ ht hd).1]
      · have hfin : (!finished.getD k false) = true := by
          rw [hF k]
          simp only [Bool.not_eq_true] at hd
          rw [hd]; simp
        rw [if_pos hfin, hmeas, hview, i2]

theorem measure_sequence_results (s : ChpSim) (targets : List Nat) (bias : ℚ) (k : Nat)
    (hk : k ≤ targets.length) :
    (s.measure_sequence bias (targets.take k)).1.length = k ∧
    ∀ i, i < k → (s.measure_sequence bias (targets.take k)).1[i]? =
      some ((s.measure_sequence bias (targets.take i)).2.measure (targets.getD i 0) bias).1 := by
  induction k with
  | zero => exact ⟨rfl, fun i hi => absurd hi (Nat.not_lt_zero i)⟩
  | succ k ih =>
    have hk' : k < targets.length := by omega
    obtain ⟨h1, h2⟩ := ih (by omega)
    rw [take_succ_getD targets k hk', measure_sequence_snoc]
    refine ⟨by simp [h1], ?_⟩
    intro i hi
    by_cases hik : i < k
    · simp only
      rw [List.getElem?_append_left (by rw [h1]; exact hik)]
      exact h2 i hik
    · have hie : i = k := by omega
      subst hie
      simp only
      rw [List.getElem?_append_right (by rw [h1]), h1]
      simp

theorem second_pass_all_finished (targets : List Nat) (bias : ℚ) (finished : List Bool)
    (ks : List Nat) (init : List Bool × BlockTransposedTableau × Rng)
    (h : ∀ k ∈ ks, finished.getD k false = true) :
    measure_many_second_pass targets bias finished ks init = init := by
  induction ks with
  | nil => rfl
  | cons k ks ih =>
    rw [second_pass_cons, second_pass_single]
    have hk := h k (List.mem_cons_self k ks)
    rw [hk]
    simp only [Bool.not_true, Bool.false_eq_true, if_false]
    exact ih (fun j hj => h j (List.mem_cons_of_mem k hj))

/-- Batched and sequential measurement agree on a tableau that satisfies the commutation
invariant, for targets below `n`. -/
theorem measure_many_eq_sequence (s : ChpSim) (targets : List Nat) (bias : ℚ)
    (hinv : s.inv_state.commutation_invariant)
    (hT : ∀ t ∈ targets, t < s.inv_state.num_qubits) :
    s.measure_many targets bias = s.measure_sequence bias targets := by
  obtain ⟨f1, _, f3, _⟩ := first_pass_initial s targets
  have sim := fun k hk => second_pass_simulates s targets bias
    (measure_many_first_pass s targets (List.range targets.length)
      (List.replicate targets.length false, List.replicate targets.length false, false)).1
    (measure_many_first_pass s targets (List.range targets.length)
      (List.replicate targets.length false, List.replicate targets.length false, false)).2.1
    hinv hT f1 k hk
  have seqr := measure_sequence_results s targets bias targets.length (Nat.le_refl _)
  rw [List.take_length] at seqr
  apply Prod.ext
  · apply List.ext_getElem?
    intro i
    by_cases hi : i < targets.length
    · rw [seqr.2 i hi]
      obtain ⟨i1, i2, i3, i4, i5⟩ := sim i (Nat.le_of_lt hi)
      have ht : targets.getD i 0 < s.inv_state.num_qubits := hT _ (getD_mem targets i hi)
      cases hd : s.is_deterministic (targets.getD i 0) with
      | true =>
        rw [measure_many_entry_of_deterministic s targets bias i hi hd,
          measure_of_deterministic _ _ _ (i5 _ ht hd).1, (i5 _ ht hd).2]
      | false =>
        rw [measure_many_entry_of_random s targets bias i hi hd,
          measure_eq_measure_while_transposed, i2]
        have hview : (measure_many_second_pass targets bias
            (measure_many_first_pass s targets (List.range targets.length)
              (List.replicate targets.length false, List.replicate targets.length false,
                false)).1
            (List.range i)
            ((measure_many_first_pass s targets (List.range targets.length)
              (List.replicate targets.length false, List.replicate targets.length false,
                false)).2.1,
              BlockTransposedTableau.create s.inv_state, s.rng)).2.1
            = BlockTransposedTableau.create
                (s.measure_sequence bias (targets.take i)).2.inv_state := by
          show _ = BlockTransposedTableau.mk _
          rw [← i1]
        rw [hview]
    · have h1 : (s.measure_many targets bias).1.length ≤ i := by
        rw [measure_many_length]; omega
      have h2 : (s.measure_sequence bias targets).1.length ≤ i := by
        rw [seqr.1]; omega
      rw [List.getElem?_eq_none h1, List.getElem?_eq_none h2]
  · obtain ⟨i1, i2, _, _, _⟩ := sim targets.length (Nat.le_refl _)
    rw [List.take_length] at i1 i2
    unfold ChpSim.measure_many
    simp only
    split
    · show ({ inv_state := _, rng := _ } : ChpSim) = _
      simp only [BlockTransposedTableau.release]
      rw [i1, i2]
    · rename_i hany
      have hall : ∀ k ∈ List.range targets.length,
          (measure_many_first_pass s targets (List.range targets.length)
            (List.replicate targets.length false, List.replicate targets.length false,
              false)).1.getD k false = true := by
        intro k hk
        have hk' : k < targets.length := List.mem_range.mp hk
        rw [f1 k]
        rw [f3] at hany
        have : ¬ ((!s.is_deterministic (targets.getD k 0)) = true) := by
          intro hc
          apply hany
          rw [List.any_eq_true]
          exact ⟨k, hk, hc⟩
        cases hd : s.is_deterministic (targets.getD k 0)
        · rw [hd] at this; exact absurd rfl this
        · simp [hk']
      rw [second_pass_all_finished targets bias _ _ _ hall] at i1 i2
      show s = _
      cases hs : s.measure_sequence bias targets with
      | mk res st =>
        rw [hs] at i1 i2
        simp only [BlockTransposedTableau.create] at i1 i2
        cases st
        cases s
        simp only at i1 i2 ⊢
        rw [i1, i2]


/-- C19. Batched and sequential measurement agree: on a tableau that satisfies the
commutation invariant and for targets below `n` (duplicates allowed), `measure_many` returns
the same bits, leaves the same generator (the same coins drawn in the same order) and the
same tableau as `measure` called on the targets one after another. -/
theorem batched_agrees_with_sequential (s : ChpSim) (targets : List Nat) (bias : ℚ)
    (hinv : s.inv_state.commutation_invariant)
    (hT : ∀ t ∈ targets, t < s.inv_state.num_qubits) :
    (s.measure_many targets bias).1 = (s.measure_sequence bias targets).1 ∧
    (s.measure_many targets bias).2.rng = (s.measure_sequence bias targets).2.rng ∧
    (s.measure_many targets bias).2.inv_state
      = (s.measure_sequence bias targets).2.inv_state := by
  rw [measure_many_eq_sequence s targets bias hinv hT]
  exact ⟨rfl, rfl, rfl⟩

theorem batched_agrees_with_sequential_witness :
    ((((ChpSim.new 2 example_rng).H 0).CX 0 1).measure_many [1, 0, 1] (1 / 2)).1
      = ((((ChpSim.new 2 example_rng).H 0).CX 0 1).measure_sequence (1 / 2) [1, 0, 1]).1 ∧
    ((((ChpSim.new 2 example_rng).H 0).CX 0 1).measure_many [1, 0, 1] (1 / 2)).2.rng
      = ((((ChpSim.new 2 example_rng).H 0).CX 0 1).measure_sequence (1 / 2) [1, 0, 1]).2.rng ∧
    ((((ChpSim.new 2 example_rng).H 0).CX 0 1).measure_many [1, 0, 1] (1 / 2)).2.inv_state
      = ((((ChpSim.new 2 example_rng).H 0).CX 0 1).measure_sequence (1 / 2)
          [1, 0, 1]).2.inv_state :=
  batched_agrees_with_sequential (((ChpSim.new 2 example_rng).H 0).CX 0 1) [1, 0, 1] (1 / 2)
    (reachable_commutation_invariant _
      (Reachable.gate _ (GateCall.CX 0 1)
        (Reachable.gate _ (GateCall.H 0) (Reachable.fresh 2 example_rng) (by decide))
        (by decide)))
    (by decide)

/-! ### The GHZ readout -/

theorem ghz_find_pivot :
    find_pivot (BlockTransposedTableau.create ghz_tableau) 0 = some 0 := by
  decide

theorem ghz_x_bits :
    (ghz_tableau.z_obs 0).x 0 = true ∧ (ghz_tableau.z_obs 1).x 0 = true ∧
      (ghz_tableau.z_obs 2).x 0 = true := by
  decide

theorem ghz_collapse (c : Bool) :
    (∀ j, j < 256 →
      ((collapse_view (BlockTransposedTableau.create ghz_tableau) 0 0 c).tableau.z_obs 1).x j
        = false) ∧
    ((collapse_view (BlockTransposedTableau.create ghz_tableau) 0 0 c).tableau.z_obs 1).sign
      = c ∧
    (∀ j, j < 256 →
      ((collapse_view (BlockTransposedTableau.create ghz_tableau) 0 0 c).tableau.z_obs 2).x j
        = false) ∧
    ((collapse_view (BlockTransposedTableau.create ghz_tableau) 0 0 c).tableau.z_obs 2).sign
      = c ∧
    (collapse_view (BlockTransposedTableau.create ghz_tableau) 0 0 c).tableau.num_qubits
      = 3 := by
  cases c <;> decide

theorem ghz_not_deterministic (seed : Rng) (q : Nat) (hq : q < 3) :
    ((((ChpSim.new 3 seed).H 0).CX 0 1).CX 1 2).is_deterministic q = false := by
  rw [← Bool.not_eq_true, is_deterministic_iff]
  intro h
  have h0 := h 0 (show 0 < ceil256 3 by decide)
  have h1 : (ghz_tableau.z_obs q).x 0 = true := by
    obtain ⟨a, b, c⟩ := ghz_x_bits
    interval_cases q
    · exact a
    · exact b
    · exact c
  exact absurd (h1.symm.trans h0) (by decide)

theorem ghz_sequence (seed : Rng) (bias : ℚ) :
    ((((ChpSim.new 3 seed).H 0).CX 0 1).CX 1 2).measure_sequence bias [0, 1, 2] =
      ([(seed.bernoulli bias).1, (seed.bernoulli bias).1, (seed.bernoulli bias).1],
       { inv_state := (collapse_view (BlockTransposedTableau.create ghz_tableau) 0 0
            (seed.bernoulli bias).1).release
         rng := (seed.bernoulli bias).2 }) := by
  have hfirst : ((((ChpSim.new 3 seed).H 0).CX 0 1).CX 1 2).measure 0 bias =
      ((seed.bernoulli bias).1,
       { inv_state := (collapse_view (BlockTransposedTableau.create ghz_tableau) 0 0
            (seed.bernoulli bias).1).release
         rng := (seed.bernoulli bias).2 }) := by
    rw [measure_of_not_deterministic _ 0 bias (ghz_not_deterministic seed 0 (by decide))]
    have h := measure_while_transposed_eq_collapse_view seed
      (BlockTransposedTableau.create ghz_tableau) 0 bias 0 ghz_find_pivot
    exact congrArg (fun r : Bool × BlockTransposedTableau × Rng =>
      (r.1, ({ inv_state := r.2.1.release, rng := r.2.2 } : ChpSim))) h
  obtain ⟨hx1, hs1, hx2, hs2, hn⟩ := ghz_collapse (seed.bernoulli bias).1
  have hd : ∀ q, (∀ j, j < 256 →
        ((collapse_view (BlockTransposedTableau.create ghz_tableau) 0 0
          (seed.bernoulli bias).1).tableau.z_obs q).x j = false) →
      ({ inv_state := (collapse_view (BlockTransposedTableau.create ghz_tableau) 0 0
            (seed.bernoulli bias).1).release
         rng := (seed.bernoulli bias).2 } : ChpSim).is_deterministic q = true := by
    intro q hx
    rw [is_deterministic_iff]
    intro j hj
    have hj' : j < ceil256 (collapse_view (BlockTransposedTableau.create ghz_tableau) 0 0
        (seed.bernoulli bias).1).tableau.num_qubits := hj
    rw [hn] at hj'
    exact hx j hj'
  simp only [ChpSim.measure_sequence, hfirst, measure_of_deterministic _ 1 bias (hd 1 hx1),
    measure_of_deterministic _ 2 bias (hd 2 hx2)]
  have e1 : ({ inv_state := (collapse_view (BlockTransposedTableau.create ghz_tableau) 0 0
            (seed.bernoulli bias).1).release
               rng := (seed.bernoulli bias).2 } : ChpSim).inv_state.z_sign 1
      = (seed.bernoulli bias).1 := hs1
  have e2 : ({ inv_state := (collapse_view (BlockTransposedTableau.create ghz_tableau) 0 0
            (seed.bernoulli bias).1).release
               rng := (seed.bernoulli bias).2 } : ChpSim).inv_state.z_sign 2
      = (seed.bernoulli bias).1 := hs2
  rw [e1, e2]

/-- C11. GHZ readout: on a fresh 3-qubit simulator after `H(0); CX(0,1); CX(1,2)`,
`measure_many([0,1,2], bias)` draws exactly one coin `c` and returns `(c, c, c)`; with bias 1
the result is `(1, 1, 1)`.  Targets 1 and 2 are random before the call; determined by the
collapse of target 0 in the same call, they return the collapsed sign and draw no coin. -/
theorem ghz_measure_many (seed : Rng) (bias : ℚ) :
    (((((ChpSim.new 3 seed).H 0).CX 0 1).CX 1 2).measure_many [0, 1, 2] bias).1
      = [(seed.bernoulli bias).1, (seed.bernoulli bias).1, (seed.bernoulli bias).1] ∧
    (((((ChpSim.new 3 seed).H 0).CX 0 1).CX 1 2).measure_many [0, 1, 2] bias).2.rng
      = (seed.bernoulli bias).2 ∧
    (((((ChpSim.new 3 seed).H 0).CX 0 1).CX 1 2).measure_many [0, 1, 2] 1).1
      = [true, true, true] ∧
    ((((ChpSim.new 3 seed).H 0).CX 0 1).CX 1 2).is_deterministic 1 = false ∧
    ((((ChpSim.new 3 seed).H 0).CX 0 1).CX 1 2).is_deterministic 2 = false := by
  have hreach : Reachable ((((ChpSim.new 3 seed).H 0).CX 0 1).CX 1 2) :=
    Reachable.gate _ (GateCall.CX 1 2)
      (Reachable.gate _ (GateCall.CX 0 1)
        (Reachable.gate _ (GateCall.H 0) (Reachable.fresh 3 seed)
          (show GateCall.valid 3 (GateCall.H 0) = true by decide))
        (show GateCall.valid 3 (GateCall.CX 0 1) = true by decide))
      (show GateCall.valid 3 (GateCall.CX 1 2) = true by decide)
  have key : ∀ b : ℚ,
      ((((ChpSim.new 3 seed).H 0).CX 0 1).CX 1 2).measure_many [0, 1, 2] b =
      ([(seed.bernoulli b).1, (seed.bernoulli b).1, (seed.bernoulli b).1],
       { inv_state := (collapse_view (BlockTransposedTableau.create ghz_tableau) 0 0
            (seed.bernoulli b).1).release
         rng := (seed.bernoulli b).2 }) := by
    intro b
    rw [measure_many_eq_sequence _ [0, 1, 2] b (reachable_commutation_invariant _ hreach)
      (show ∀ t ∈ [0, 1, 2], t < 3 by decide)]
    exact ghz_sequence seed b
  refine ⟨?_, ?_, ?_, ghz_not_deterministic seed 1 (by decide),
    ghz_not_deterministic seed 2 (by decide)⟩
  · rw [key bias]
  · rw [key bias]
  · rw [key 1, bernoulli_one]

/-! ### Failures -/

theorem do_interleave8_tile128_lists (a b : simd_word) :
    List.ofFn (a.do_interleave8_tile128 b).1.val.bytes =
      [a.val.bytes 0, b.val.bytes 0, a.val.bytes 1, b.val.bytes 1, a.val.bytes 2,
       b.val.bytes 2, a.val.bytes 3, b.val.bytes 3, a.val.bytes 4, b.val.bytes 4,
       a.val.bytes 5, b.val.bytes 5, a.val.bytes 6, b.val.bytes 6, a.val.bytes 7,
       b.val.bytes 7] ∧
    List.ofFn (a.do_interleave8_tile128 b).2.val.bytes =
      [a.val.bytes 8, b.val.bytes 8, a.val.bytes 9, b.val.bytes 9, a.val.bytes 10,
       b.val.bytes 10, a.val.bytes 11, b.val.bytes 11, a.val.bytes 12, b.val.bytes 12,
       a.val.bytes 13, b.val.bytes 13, a.val.bytes 14, b.val.bytes 14, a.val.bytes 15,
       b.val.bytes 15] :=
  ⟨rfl, rfl⟩

theorem ofFn_bytes (a : simd_word) :
    List.ofFn a.val.bytes = [a.val.bytes 0, a.val.bytes 1, a.val.bytes 2,
      a.val.bytes 3, a.val.bytes 4, a.val.bytes 5, a.val.bytes 6, a.val.bytes 7,
      a.val.bytes 8, a.val.bytes 9, a.val.bytes 10, a.val.bytes 11, a.val.bytes 12,
      a.val.bytes 13, a.val.bytes 14, a.val.bytes 15] :=
  rfl

/-- C20. For every pair of 128-bit words `a = [a0..a15]` and `b = [b0..b15]` (bytes, least
significant first), `a.do_interleave8_tile128(b)` leaves `a = [a0 b0 a1 b1 ... a7 b7]` and
`b = [a8 b8 a9 b9 ... a15 b15]`; the 32 bytes after the call are a permutation of the 32
bytes before it. -/
theorem do_interleave8_tile128_spec (a b : simd_word) :
    List.ofFn (a.do_interleave8_tile128 b).1.val.bytes =
      [a.val.bytes 0, b.val.bytes 0, a.val.bytes 1, b.val.bytes 1, a.val.bytes 2,
       b.val.bytes 2, a.val.bytes 3, b.val.bytes 3, a.val.bytes 4, b.val.bytes 4,
       a.val.bytes 5, b.val.bytes 5, a.val.bytes 6, b.val.bytes 6, a.val.bytes 7,
       b.val.bytes 7] ∧
    List.ofFn (a.do_interleave8_tile128 b).2.val.bytes =
      [a.val.bytes 8, b.val.bytes 8, a.val.bytes 9, b.val.bytes 9, a.val.bytes 10,
       b.val.bytes 10, a.val.bytes 11, b.val.bytes 11, a.val.bytes 12, b.val.bytes 12,
       a.val.bytes 13, b.val.bytes 13, a.val.bytes 14, b.val.bytes 14, a.val.bytes 15,
       b.val.bytes 15] ∧
    List.Perm
      (List.ofFn (a.do_interleave8_tile128 b).1.val.bytes ++
        List.ofFn (a.do_interleave8_tile128 b).2.val.bytes)
      (List.ofFn a.val.bytes ++ List.ofFn b.val.bytes) := by
  obtain ⟨h1, h2⟩ := do_interleave8_tile128_lists a b
  refine ⟨h1, h2, ?_⟩
  rw [h1, h2, ofFn_bytes a, ofFn_bytes b, ← Multiset.coe_eq_coe]
  simp only [List.cons_append, List.nil_append, ← Multiset.cons_coe, ← Multiset.singleton_add]
  abel

end Stim
